import Mathlib

/-!
Verification of the onion-routing workshop repository.

Shallow embedding conventions:
* JavaScript strings and byte buffers are both modelled as `List Nat`
  (character codes / byte values).  All protocol strings (Base64 text and
  decimal digits) are ASCII, so `TextEncoder`/`TextDecoder` are the
  identity on this representation.
* `Buffer.from(..).toString("base64")` / `Buffer.from(.., "base64")`
  (file `src/crypto.ts`, helpers `arrayBufferToBase64` and
  `base64ToArrayBuffer`) are modelled by the executable `b64Encode` /
  `b64Decode` below, which implement standard Base64 with `=` padding.
* The AES-CBC block cipher and the RSA-OAEP primitive provided by
  `webcrypto.subtle` are external library calls, not code of this
  repository; they are modelled as structures (`BlockCipher`,
  `AsymScheme`) whose fields state exactly the interface the code relies
  on, with fully executable sample instances used for concrete runs.
  The CBC mode of operation, the IV handling, the PKCS#7 padding and all
  surrounding string plumbing are modelled concretely.
* Randomness (`Math.random`, fresh keys, fresh IVs) is passed in as
  explicit parameters, and outcomes of outward `fetch` calls as a
  boolean parameter.
-/

namespace Onion

/-! ### Base64 (model of arrayBufferToBase64 / base64ToArrayBuffer) -/

/-- ASCII code of the Base64 alphabet character for a sextet value. -/
def b64Char (n : Nat) : Nat :=
  if n < 26 then 65 + n
  else if n < 52 then 97 + (n - 26)
  else if n < 62 then 48 + (n - 52)
  else if n = 62 then 43
  else 47

/-- Inverse of `b64Char` on ASCII codes; unknown characters map to 0,
matching Node's lenient Base64 decoder. -/
def b64CharVal (c : Nat) : Nat :=
  if 65 ≤ c ∧ c ≤ 90 then c - 65
  else if 97 ≤ c ∧ c ≤ 122 then c - 71
  else if 48 ≤ c ∧ c ≤ 57 then c + 4
  else if c = 43 then 62
  else if c = 47 then 63
  else 0

/-- Base64 encoding of a byte list, producing ASCII codes with `=` (61)
padding, as `Buffer.toString("base64")` does. -/
def b64Encode : List Nat → List Nat
  | [] => []
  | [a] => [b64Char (a / 4), b64Char (a % 4 * 16), 61, 61]
  | [a, b] => [b64Char (a / 4), b64Char (a % 4 * 16 + b / 16), b64Char (b % 16 * 4), 61]
  | a :: b :: c :: rest =>
      b64Char (a / 4) :: b64Char (a % 4 * 16 + b / 16) ::
      b64Char (b % 16 * 4 + c / 64) :: b64Char (c % 64) :: b64Encode rest

/-- Base64 decoding of an ASCII code list back to bytes, honouring `=`
(61) padding, as `Buffer.from(s, "base64")` does on well-formed input. -/
def b64Decode : List Nat → List Nat
  | w :: x :: y :: z :: rest =>
      if y = 61 then [b64CharVal w * 4 + b64CharVal x / 16]
      else if z = 61 then
        [b64CharVal w * 4 + b64CharVal x / 16, b64CharVal x % 16 * 16 + b64CharVal y / 4]
      else
        (b64CharVal w * 4 + b64CharVal x / 16) ::
        (b64CharVal x % 16 * 16 + b64CharVal y / 4) ::
        (b64CharVal y % 4 * 64 + b64CharVal z) :: b64Decode rest
  | _ => []

theorem b64CharVal_b64Char : ∀ n, n < 64 → b64CharVal (b64Char n) = n := by decide

theorem b64Char_lt : ∀ n, b64Char n < 123 := by
  intro n
  unfold b64Char
  split <;> [omega; (split <;> [omega; (split <;> [omega; (split <;> omega)])])]

theorem b64Char_ne_61 : ∀ n, b64Char n ≠ 61 := by
  intro n
  unfold b64Char
  split <;> [omega; (split <;> [omega; (split <;> [omega; (split <;> omega)])])]

theorem b64Decode_b64Encode (bs : List Nat) (h : ∀ x ∈ bs, x < 256) :
    b64Decode (b64Encode bs) = bs := by
  match bs with
  | [] => rfl
  | [a] =>
      have ha : a < 256 := h a (by simp)
      simp only [b64Encode, b64Decode, if_true, List.cons.injEq, and_true,
        b64CharVal_b64Char _ (show a / 4 < 64 by omega),
        b64CharVal_b64Char _ (show a % 4 * 16 < 64 by omega)]
      omega
  | [a, b] =>
      have ha : a < 256 := h a (by simp)
      have hb : b < 256 := h b (by simp)
      simp only [b64Encode, b64Decode, if_true, if_neg (b64Char_ne_61 _),
        List.cons.injEq, and_true,
        b64CharVal_b64Char _ (show a / 4 < 64 by omega),
        b64CharVal_b64Char _ (show a % 4 * 16 + b / 16 < 64 by omega),
        b64CharVal_b64Char _ (show b % 16 * 4 < 64 by omega)]
      omega
  | a :: b :: c :: rest =>
      have ha : a < 256 := h a (by simp)
      have hb : b < 256 := h b (by simp)
      have hc : c < 256 := h c (by simp)
      have ih := b64Decode_b64Encode rest (fun x hx => h x (by simp [hx]))
      simp only [b64Encode, b64Decode, if_neg (b64Char_ne_61 _), List.cons.injEq,
        b64CharVal_b64Char _ (show a / 4 < 64 by omega),
        b64CharVal_b64Char _ (show a % 4 * 16 + b / 16 < 64 by omega),
        b64CharVal_b64Char _ (show b % 16 * 4 + c / 64 < 64 by omega),
        b64CharVal_b64Char _ (show c % 64 < 64 by omega), ih]
      refine ⟨by omega, by omega, by omega, trivial⟩

theorem b64Encode_length (bs : List Nat) :
    (b64Encode bs).length = (bs.length + 2) / 3 * 4 := by
  match bs with
  | [] => rfl
  | [a] => simp [b64Encode]
  | [a, b] => simp [b64Encode]
  | a :: b :: c :: rest =>
      have ih := b64Encode_length rest
      simp only [b64Encode, List.length_cons, ih]
      omega

theorem b64Encode_mem_lt (bs : List Nat) : ∀ x ∈ b64Encode bs, x < 256 := by
  match bs with
  | [] => simp [b64Encode]
  | [a] =>
      simp only [b64Encode, List.mem_cons, List.not_mem_nil, or_false]
      rintro x (rfl | rfl | rfl | rfl) <;> first | omega | exact lt_trans (b64Char_lt _) (by omega)
  | [a, b] =>
      simp only [b64Encode, List.mem_cons, List.not_mem_nil, or_false]
      rintro x (rfl | rfl | rfl | rfl) <;> first | omega | exact lt_trans (b64Char_lt _) (by omega)
  | a :: b :: c :: rest =>
      have ih := b64Encode_mem_lt rest
      simp only [b64Encode, List.mem_cons]
      rintro x (rfl | rfl | rfl | rfl | hx)
      · exact lt_trans (b64Char_lt _) (by omega)
      · exact lt_trans (b64Char_lt _) (by omega)
      · exact lt_trans (b64Char_lt _) (by omega)
      · exact lt_trans (b64Char_lt _) (by omega)
      · exact ih x hx

/-! ### Decimal rendering and parsing
Models JavaScript template-string number rendering with
`.padStart(10, "0")` (file `src/users/user.ts`) and
`parseInt(s.substring(0,10), 10)` (file `src/onionRouters/simpleOnionRouter.ts`). -/

/-- Big-endian decimal digit codes of `n`; fuel-driven so that it
reduces in the kernel.  `natToDecGo fuel n` is correct whenever
`n ≤ fuel`. -/
def natToDecGo : Nat → Nat → List Nat
  | 0, _ => []
  | _ + 1, 0 => []
  | fuel + 1, n + 1 => natToDecGo fuel ((n + 1) / 10) ++ [(n + 1) % 10 + 48]

/-- Decimal rendering of a natural number, as JavaScript `String(n)`. -/
def natToDec (n : Nat) : List Nat :=
  if n = 0 then [48] else natToDecGo n n

/-- Zero left-padding to 10 characters, as `.padStart(10, "0")`. -/
def pad10 (n : Nat) : List Nat :=
  List.replicate (10 - (natToDec n).length) 48 ++ natToDec n

/-- Value of a big-endian decimal digit-code list. -/
def decToNat (l : List Nat) : Nat :=
  l.foldl (fun a c => a * 10 + (c - 48)) 0

/-- Leading-digits integer parse, as JavaScript `parseInt(s, 10)`:
`none` models `NaN` (no leading digit). -/
def parseIntJs (l : List Nat) : Option Nat :=
  let ds := l.takeWhile (fun c => 48 ≤ c && c < 58)
  if ds.isEmpty then none else some (decToNat ds)

theorem decToNat_go (l : List Nat) (a : Nat) :
    l.foldl (fun a c => a * 10 + (c - 48)) a =
      a * 10 ^ l.length + decToNat l := by
  induction l generalizing a with
  | nil => simp [decToNat]
  | cons c t ih =>
      have h2 : decToNat (c :: t) = (c - 48) * 10 ^ t.length + decToNat t := by
        simp only [decToNat, List.foldl_cons, Nat.zero_mul, Nat.zero_add]
        exact ih (c - 48)
      simp only [List.foldl_cons, List.length_cons, h2]
      rw [ih (a * 10 + (c - 48)), pow_succ]
      ring

theorem decToNat_append (l : List Nat) (c : Nat) :
    decToNat (l ++ [c]) = decToNat l * 10 + (c - 48) := by
  simp [decToNat, List.foldl_append]

theorem natToDecGo_sound (fuel n : Nat) (h : n ≤ fuel) :
    decToNat (natToDecGo fuel n) = n := by
  induction fuel generalizing n with
  | zero =>
      interval_cases n
      rfl
  | succ f ih =>
      match n with
      | 0 => rfl
      | n + 1 =>
          rw [natToDecGo, decToNat_append, ih ((n + 1) / 10) (by omega)]
          omega

theorem natToDecGo_digits (fuel n : Nat) :
    ∀ x ∈ natToDecGo fuel n, 48 ≤ x ∧ x < 58 := by
  induction fuel generalizing n with
  | zero => simp [natToDecGo]
  | succ f ih =>
      match n with
      | 0 => simp [natToDecGo]
      | n + 1 =>
          rw [natToDecGo]
          intro x hx
          rcases List.mem_append.mp hx with h1 | h2
          · exact ih _ x h1
          · simp only [List.mem_singleton] at h2
            omega

theorem natToDecGo_length (fuel n d : Nat) (h : n < 10 ^ d) :
    (natToDecGo fuel n).length ≤ d := by
  induction fuel generalizing n d with
  | zero => simp [natToDecGo]
  | succ f ih =>
      match n with
      | 0 => simp [natToDecGo]
      | n + 1 =>
          rw [natToDecGo]
          have hd : d ≠ 0 := by
            rintro rfl
            rw [pow_zero] at h
            omega
          have : (n + 1) / 10 < 10 ^ (d - 1) := by
            have h10 : 10 ^ d = 10 ^ (d - 1) * 10 := by
              conv_lhs => rw [show d = (d - 1) + 1 by omega]
              rw [pow_succ]
            omega
          have := ih ((n + 1) / 10) (d - 1) this
          simp only [List.length_append, List.length_singleton]
          omega

theorem decToNat_natToDec (n : Nat) : decToNat (natToDec n) = n := by
  unfold natToDec
  split
  · simp [decToNat]
    omega
  · exact natToDecGo_sound n n le_rfl

theorem natToDec_digits (n : Nat) : ∀ x ∈ natToDec n, 48 ≤ x ∧ x < 58 := by
  unfold natToDec
  split
  · simp
  · exact natToDecGo_digits n n

theorem natToDec_length (n : Nat) (h : n < 10 ^ 10) : (natToDec n).length ≤ 10 := by
  unfold natToDec
  split
  · simp
  · exact natToDecGo_length n n 10 h

theorem pad10_length (n : Nat) (h : n < 10 ^ 10) : (pad10 n).length = 10 := by
  have := natToDec_length n h
  have hpos : (natToDec n).length ≥ 1 := by
    unfold natToDec
    split
    · simp
    · rename_i hn
      match hf : natToDecGo n n with
      | [] =>
          exfalso
          have := natToDecGo_sound n n le_rfl
          rw [hf] at this
          simp [decToNat] at this
          omega
      | _ :: _ => simp
  simp only [pad10, List.length_append, List.length_replicate]
  omega

theorem pad10_digits (n : Nat) : ∀ x ∈ pad10 n, 48 ≤ x ∧ x < 58 := by
  intro x hx
  rcases List.mem_append.mp hx with h1 | h2
  · have := List.eq_of_mem_replicate h1
    omega
  · exact natToDec_digits n x h2

theorem decToNat_replicate_zero_append (k : Nat) (l : List Nat) :
    decToNat (List.replicate k 48 ++ l) = decToNat l := by
  induction k with
  | zero => simp
  | succ m ih =>
      simp only [List.replicate_succ, List.cons_append, decToNat, List.foldl_cons]
      simpa [decToNat] using ih

theorem decToNat_pad10 (n : Nat) : decToNat (pad10 n) = n := by
  rw [pad10, decToNat_replicate_zero_append, decToNat_natToDec]

theorem parseIntJs_pad10 (n : Nat) : parseIntJs (pad10 n) = some n := by
  have hd := pad10_digits n
  have htake : (pad10 n).takeWhile (fun c => 48 ≤ c && c < 58) = pad10 n := by
    apply List.takeWhile_eq_self_iff.mpr
    intro x hx
    have := hd x hx
    simp only [Bool.and_eq_true, decide_eq_true_eq]
    omega
  have hne : pad10 n ≠ [] := by
    simp only [pad10]
    intro hcontra
    have := congrArg List.length hcontra
    simp only [List.length_append, List.length_replicate, List.length_nil] at this
    have hpos : (natToDec n).length ≥ 1 := by
      unfold natToDec
      split
      · simp
      · rename_i hn
        match hf : natToDecGo n n with
        | [] =>
            exfalso
            have hs := natToDecGo_sound n n le_rfl
            rw [hf] at hs
            simp [decToNat] at hs
            omega
        | _ :: _ => simp
    omega
  simp only [parseIntJs, htake, List.isEmpty_iff, if_neg hne, decToNat_pad10]

/-! ### Bytes, blocks and PKCS#7 padding
Models the byte-level behaviour of `webcrypto.subtle` AES-CBC
encrypt/decrypt: PKCS#7 padding to 16-byte blocks, CBC chaining, and
padding verification on decrypt. -/

/-- Predicate for one 16-byte cipher block. -/
def IsBlock (b : List Nat) : Prop := b.length = 16 ∧ ∀ x ∈ b, x < 256

instance (b : List Nat) : Decidable (IsBlock b) := by
  unfold IsBlock
  infer_instance

/-- PKCS#7 pad amount for a payload of length `n` (always in 1..16). -/
def padLen (n : Nat) : Nat := 16 - n % 16

/-- PKCS#7 padding to a multiple of 16 bytes. -/
def pad16 (l : List Nat) : List Nat :=
  l ++ List.replicate (padLen l.length) (padLen l.length)

/-- PKCS#7 padding check and removal; `none` models the
`OperationError` webcrypto raises on invalid padding. -/
def unpad16 (l : List Nat) : Option (List Nat) :=
  match l.getLast? with
  | none => none
  | some p =>
      if 1 ≤ p ∧ p ≤ 16 ∧ p ≤ l.length ∧ (l.drop (l.length - p)).all (fun x => x == p)
      then some (l.take (l.length - p)) else none

theorem padLen_pos (n : Nat) : 1 ≤ padLen n := by
  unfold padLen
  omega

theorem padLen_le (n : Nat) : padLen n ≤ 16 := by
  unfold padLen
  omega

theorem pad16_length_mod (l : List Nat) : (pad16 l).length % 16 = 0 := by
  simp only [pad16, List.length_append, List.length_replicate, padLen]
  omega

theorem pad16_mem_lt (l : List Nat) (h : ∀ x ∈ l, x < 256) :
    ∀ x ∈ pad16 l, x < 256 := by
  intro x hx
  rcases List.mem_append.mp hx with h1 | h2
  · exact h x h1
  · have := List.eq_of_mem_replicate h2
    have := padLen_le l.length
    omega

theorem unpad16_pad16 (l : List Nat) : unpad16 (pad16 l) = some l := by
  have hrep : (List.replicate (padLen l.length) (padLen l.length) : List Nat) ≠ [] := by
    have := padLen_pos l.length
    simp only [ne_eq, List.replicate_eq_nil_iff]
    omega
  have hlast : (pad16 l).getLast? = some (padLen l.length) := by
    rw [pad16, List.getLast?_append_of_ne_nil _ hrep]
    rw [List.getLast?_eq_getLast _ hrep, List.getLast_replicate]
  have hlen : (pad16 l).length = l.length + padLen l.length := by
    simp [pad16]
  rw [unpad16, hlast]
  dsimp only
  have h1 := padLen_pos l.length
  have h2 := padLen_le l.length
  have hdrop : (pad16 l).drop ((pad16 l).length - padLen l.length) =
      List.replicate (padLen l.length) (padLen l.length) := by
    rw [hlen, Nat.add_sub_cancel, pad16, List.drop_left]
  have htake : (pad16 l).take ((pad16 l).length - padLen l.length) = l := by
    rw [hlen, Nat.add_sub_cancel, pad16, List.take_left]
  rw [if_pos]
  · rw [htake]
  · refine ⟨h1, h2, by omega, ?_⟩
    rw [hdrop]
    simp

/-! ### Chunking a byte list into 16-byte blocks
Fuel-driven so that it reduces in the kernel; `chunks16` always uses
enough fuel. -/

def chunksGo : Nat → List Nat → List (List Nat)
  | 0, _ => []
  | _ + 1, [] => []
  | fuel + 1, x :: rest => ((x :: rest).take 16) :: chunksGo fuel ((x :: rest).drop 16)

/-- Split a byte list into consecutive 16-byte blocks (the final block
may be shorter if the length is not a multiple of 16). -/
def chunks16 (l : List Nat) : List (List Nat) := chunksGo l.length l

theorem chunksGo_fuel (fuel : Nat) :
    ∀ (fuel' : Nat) (l : List Nat), l.length ≤ fuel → l.length ≤ fuel' →
      chunksGo fuel l = chunksGo fuel' l := by
  induction fuel with
  | zero =>
      intro fuel' l h h'
      match l, fuel' with
      | [], 0 => rfl
      | [], _ + 1 => rfl
      | x :: r, _ => simp at h
  | succ f ih =>
      intro fuel' l h h'
      match l, fuel' with
      | [], 0 => rfl
      | [], _ + 1 => rfl
      | x :: r, 0 => simp at h'
      | x :: r, f' + 1 =>
          simp only [chunksGo]
          congr 1
          have hd : ((x :: r).drop 16).length ≤ r.length := by
            simp only [List.length_drop, List.length_cons]
            omega
          exact ih f' _ (by simp at h; omega) (by simp at h'; omega)

theorem chunks16_cons (x : Nat) (rest : List Nat) :
    chunks16 (x :: rest) = ((x :: rest).take 16) :: chunks16 ((x :: rest).drop 16) := by
  rw [chunks16, List.length_cons, chunksGo]
  congr 1
  refine chunksGo_fuel _ _ _ ?_ (le_refl _)
  simp only [List.length_drop, List.length_cons]
  omega

theorem chunks16_nil : chunks16 [] = [] := rfl

theorem chunks16_flatten_inv (l : List Nat) : (chunks16 l).flatten = l := by
  generalize hn : l.length = n
  induction n using Nat.strong_induction_on generalizing l with
  | _ n ih =>
      match l with
      | [] => rfl
      | x :: rest =>
          simp only [List.length_cons] at hn
          rw [chunks16_cons, List.flatten_cons]
          have hlt : ((x :: rest).drop 16).length < n := by
            simp only [List.length_drop, List.length_cons]
            omega
          rw [ih _ hlt _ rfl]
          exact List.take_append_drop 16 (x :: rest)

theorem chunks16_blocks (l : List Nat) (hm : l.length % 16 = 0)
    (hb : ∀ x ∈ l, x < 256) : ∀ b ∈ chunks16 l, IsBlock b := by
  generalize hn : l.length = n
  induction n using Nat.strong_induction_on generalizing l with
  | _ n ih =>
      match l with
      | [] => simp [chunks16_nil]
      | x :: rest =>
          simp only [List.length_cons] at hm hn
          rw [chunks16_cons]
          intro b hbmem
          rcases List.mem_cons.mp hbmem with rfl | htail
          · constructor
            · simp only [List.length_take, List.length_cons]
              omega
            · intro y hy
              exact hb y (List.mem_of_mem_take hy)
          · have hlt : ((x :: rest).drop 16).length < n := by
              simp only [List.length_drop, List.length_cons]
              omega
            refine ih _ hlt _ ?_ ?_ rfl b htail
            · simp only [List.length_drop, List.length_cons]
              omega
            · intro y hy
              exact hb y (List.mem_of_mem_drop hy)

theorem chunks16_flatten (bs : List (List Nat)) (h : ∀ b ∈ bs, b.length = 16) :
    chunks16 bs.flatten = bs := by
  induction bs with
  | nil => rfl
  | cons b rest ih =>
      have hb : b.length = 16 := h b (by simp)
      match b with
      | [] => simp at hb
      | y :: bt =>
          rw [List.flatten_cons, List.cons_append, chunks16_cons, ← List.cons_append,
            List.take_left' hb, List.drop_left' hb, ih (fun c hc => h c (by simp [hc]))]

theorem flatten_length_16 (bs : List (List Nat)) (h : ∀ b ∈ bs, b.length = 16) :
    bs.flatten.length = 16 * bs.length := by
  induction bs with
  | nil => rfl
  | cons b rest ih =>
      simp only [List.flatten_cons, List.length_append, List.length_cons,
        h b (by simp), ih (fun c hc => h c (by simp [hc]))]
      ring

/-! ### XOR on blocks -/

/-- Byte-wise XOR of two equal-length blocks. -/
def xorBlock (a b : List Nat) : List Nat := List.zipWith Nat.xor a b

theorem xorBlock_length (a b : List Nat) :
    (xorBlock a b).length = min a.length b.length := by
  simp [xorBlock]

theorem xorBlock_xorBlock (a b : List Nat) (h : a.length = b.length) :
    xorBlock (xorBlock a b) b = a := by
  induction a generalizing b with
  | nil => simp [xorBlock]
  | cons x t ih =>
      match b with
      | [] => simp at h
      | y :: s =>
          simp only [xorBlock, List.zipWith_cons_cons, List.cons.injEq]
          exact ⟨Nat.xor_cancel_right y x, ih s (by simpa using h)⟩

theorem xorBlock_mem_lt (a b : List Nat) (hav : ∀ x ∈ a, x < 256)
    (hbv : ∀ x ∈ b, x < 256) : ∀ x ∈ xorBlock a b, x < 256 := by
  have h256 : (256 : Nat) = 2 ^ 8 := by norm_num
  induction a generalizing b with
  | nil => simp [xorBlock]
  | cons x t ih =>
      match b with
      | [] => simp [xorBlock]
      | y :: s =>
          simp only [xorBlock, List.zipWith_cons_cons, List.mem_cons]
          rintro z (rfl | hz)
          · rw [h256]
            exact Nat.xor_lt_two_pow (n := 8) (h256 ▸ hav x (by simp))
              (h256 ▸ hbv y (by simp))
          · exact ih s (fun w hw => hav w (by simp [hw]))
              (fun w hw => hbv w (by simp [hw])) z hz

theorem xorBlock_isBlock (a b : List Nat) (ha : IsBlock a) (hb : IsBlock b) :
    IsBlock (xorBlock a b) := by
  obtain ⟨hal, hav⟩ := ha
  obtain ⟨hbl, hbv⟩ := hb
  exact ⟨by simp [xorBlock_length, hal, hbl], xorBlock_mem_lt a b hav hbv⟩

theorem xorBlock_left_injective (a a' b : List Nat)
    (ha : a.length = b.length) (ha' : a'.length = b.length)
    (h : xorBlock a b = xorBlock a' b) : a = a' := by
  have := congrArg (fun l => xorBlock l b) h
  simpa [xorBlock_xorBlock a b ha, xorBlock_xorBlock a' b ha'] using this

/-! ### Block cipher interface
The AES block permutation provided by `webcrypto.subtle` for AES-CBC
(external library, not code of this repository).  The fields state the
interface the code relies on: a keyed permutation of 16-byte blocks. -/

structure BlockCipher where
  encB : List Nat → List Nat → List Nat
  decB : List Nat → List Nat → List Nat
  encB_isBlock : ∀ k b, IsBlock b → IsBlock (encB k b)
  decB_isBlock : ∀ k b, IsBlock b → IsBlock (decB k b)
  decB_encB : ∀ k b, IsBlock b → decB k (encB k b) = b
  encB_decB : ∀ k b, IsBlock b → encB k (decB k b) = b

/-- CBC-mode encryption over a list of plaintext blocks, chaining on the
previous ciphertext block (initially the IV). -/
def cbcEnc (C : BlockCipher) (k : List Nat) : List Nat → List (List Nat) → List (List Nat)
  | _, [] => []
  | prev, b :: rest =>
      let c := C.encB k (xorBlock b prev)
      c :: cbcEnc C k c rest

/-- CBC-mode decryption over a list of ciphertext blocks. -/
def cbcDec (C : BlockCipher) (k : List Nat) : List Nat → List (List Nat) → List (List Nat)
  | _, [] => []
  | prev, c :: rest => xorBlock (C.decB k c) prev :: cbcDec C k c rest

theorem cbcEnc_isBlock (C : BlockCipher) (k : List Nat) (prev : List Nat)
    (bs : List (List Nat)) (hprev : IsBlock prev) (hbs : ∀ b ∈ bs, IsBlock b) :
    ∀ c ∈ cbcEnc C k prev bs, IsBlock c := by
  induction bs generalizing prev with
  | nil => simp [cbcEnc]
  | cons b rest ih =>
      simp only [cbcEnc, List.mem_cons]
      rintro c (rfl | hc)
      · exact C.encB_isBlock k _ (xorBlock_isBlock _ _ (hbs b (by simp)) hprev)
      · exact ih _ (C.encB_isBlock k _ (xorBlock_isBlock _ _ (hbs b (by simp)) hprev))
          (fun b' hb' => hbs b' (by simp [hb'])) c hc

theorem cbcDec_cbcEnc (C : BlockCipher) (k : List Nat) (prev : List Nat)
    (bs : List (List Nat)) (hprev : IsBlock prev) (hbs : ∀ b ∈ bs, IsBlock b) :
    cbcDec C k prev (cbcEnc C k prev bs) = bs := by
  induction bs generalizing prev with
  | nil => rfl
  | cons b rest ih =>
      have hxb : IsBlock (xorBlock b prev) :=
        xorBlock_isBlock _ _ (hbs b (by simp)) hprev
      simp only [cbcEnc, cbcDec, List.cons.injEq]
      constructor
      · rw [C.decB_encB k _ hxb]
        exact xorBlock_xorBlock b prev (by rw [(hbs b (by simp)).1, hprev.1])
      · exact ih _ (C.encB_isBlock k _ hxb) (fun b' hb' => hbs b' (by simp [hb']))

theorem cbcDec_length (C : BlockCipher) (k : List Nat) (prev : List Nat)
    (cs : List (List Nat)) : (cbcDec C k prev cs).length = cs.length := by
  induction cs generalizing prev with
  | nil => rfl
  | cons c rest ih => simp only [cbcDec, List.length_cons, ih]

/-! ### Key manager wrappers (file `src/crypto.ts`)
`exportSymKey`/`importSymKey` are raw-format export/import plus Base64;
`symEncrypt`/`symDecrypt` add IV prefixing and Base64, and
`rsaEncrypt`/`rsaDecrypt` wrap the RSA-OAEP primitive in Base64. -/

/-- Model of `exportSymKey`: Base64 of the raw 32-byte key material. -/
def exportSymKey (k : List Nat) : List Nat := b64Encode k

/-- Model of `importSymKey`: Base64 decode back to raw key material. -/
def importSymKey (s : List Nat) : List Nat := b64Decode s

/-- Model of `symEncrypt`: UTF-8 encode (identity here), generate a
16-byte IV (passed explicitly), CBC-encrypt with PKCS#7 padding, then
Base64 the concatenation IV ‖ ciphertext. -/
def symEncrypt (C : BlockCipher) (k iv donnees : List Nat) : List Nat :=
  b64Encode (iv ++ (cbcEnc C k iv (chunks16 (pad16 donnees))).flatten)

/-- Model of `symDecrypt`: Base64 decode the key and the payload, split
the first 16 bytes as IV, CBC-decrypt the rest and strip PKCS#7 padding.
`none` models the `OperationError` thrown on malformed input. -/
def symDecrypt (C : BlockCipher) (chaineDeLaCle donneesChiffrees : List Nat) : Option (List Nat) :=
  let k := importSymKey chaineDeLaCle
  let tampon := b64Decode donneesChiffrees
  let vecteur := tampon.take 16
  let donnees := tampon.drop 16
  if vecteur.length = 16 ∧ donnees.length % 16 = 0 then
    unpad16 ((cbcDec C k vecteur (chunks16 donnees)).flatten)
  else none

/-! ### RSA-OAEP interface
The RSA-OAEP primitive of `webcrypto.subtle` (external library).  Keys
are abstract; a public key and the matching private key are modelled as
the same value of `Key`.  2048-bit RSA-OAEP/SHA-256 ciphertexts are 256
bytes and accept at most 190 bytes of payload. -/

structure AsymScheme where
  Key : Type
  enc : Key → List Nat → List Nat
  dec : Key → List Nat → Option (List Nat)
  enc_length : ∀ k m, m.length ≤ 190 → (enc k m).length = 256
  enc_mem : ∀ k m, m.length ≤ 190 → (∀ x ∈ m, x < 256) → ∀ x ∈ enc k m, x < 256
  dec_enc : ∀ k m, m.length ≤ 190 → dec k (enc k m) = some m
  dec_ne : ∀ k q m, k ≠ q → m.length ≤ 190 → dec q (enc k m) = none

/-- Model of `rsaEncrypt`: UTF-8 encode the Base64 string argument
(identity here), OAEP-encrypt under the public key, return Base64. -/
def rsaEncrypt (A : AsymScheme) (donneesBase64 : List Nat) (clePublique : A.Key) : List Nat :=
  b64Encode (A.enc clePublique donneesBase64)

/-- Model of `rsaDecrypt`: Base64 decode, OAEP-decrypt with the private
key, UTF-8 decode (identity here).  `none` models the decryption error
thrown on key mismatch or corrupted input. -/
def rsaDecrypt (A : AsymScheme) (donnees : List Nat) (clePrivee : A.Key) : Option (List Nat) :=
  A.dec clePrivee (b64Decode donnees)

/-- Key facts about symmetric round-trips, used by several claims. -/
theorem symDecrypt_symEncrypt (C : BlockCipher) (k iv P : List Nat)
    (hk : ∀ x ∈ k, x < 256) (hiv : IsBlock iv) (hP : ∀ x ∈ P, x < 256) :
    symDecrypt C (exportSymKey k) (symEncrypt C k iv P) = some P := by
  have hpadmem := pad16_mem_lt P hP
  have hpadmod := pad16_length_mod P
  have hblocks := chunks16_blocks (pad16 P) hpadmod hpadmem
  have hct : ∀ c ∈ cbcEnc C k iv (chunks16 (pad16 P)), IsBlock c :=
    cbcEnc_isBlock C k iv _ hiv hblocks
  have hctmem : ∀ x ∈ (cbcEnc C k iv (chunks16 (pad16 P))).flatten, x < 256 := by
    intro x hx
    obtain ⟨c, hc, hxc⟩ := List.mem_flatten.mp hx
    exact (hct c hc).2 x hxc
  have hallmem : ∀ x ∈ iv ++ (cbcEnc C k iv (chunks16 (pad16 P))).flatten, x < 256 := by
    intro x hx
    rcases List.mem_append.mp hx with h1 | h2
    · exact hiv.2 x h1
    · exact hctmem x h2
  have hctlen : (cbcEnc C k iv (chunks16 (pad16 P))).flatten.length =
      16 * (cbcEnc C k iv (chunks16 (pad16 P))).length :=
    flatten_length_16 _ (fun c hc => (hct c hc).1)
  rw [symDecrypt, importSymKey, exportSymKey, b64Decode_b64Encode k hk,
    symEncrypt, b64Decode_b64Encode _ hallmem]
  rw [List.take_left' hiv.1, List.drop_left' hiv.1]
  rw [if_pos ⟨hiv.1, by rw [hctlen]; omega⟩]
  rw [chunks16_flatten _ (fun c hc => (hct c hc).1)]
  rw [cbcDec_cbcEnc C k iv _ hiv hblocks]
  rw [chunks16_flatten_inv, unpad16_pad16]

/-- RSA wrapper round-trip with the matching key. -/
theorem rsaDecrypt_rsaEncrypt (A : AsymScheme) (M : List Nat) (pub : A.Key)
    (hlen : M.length ≤ 190) (hmem : ∀ x ∈ M, x < 256) :
    rsaDecrypt A (rsaEncrypt A M pub) pub = some M := by
  rw [rsaEncrypt, rsaDecrypt,
    b64Decode_b64Encode _ (A.enc_mem pub M hlen hmem), A.dec_enc pub M hlen]

/-- RSA wrapper mismatch: a different private key yields an error. -/
theorem rsaDecrypt_rsaEncrypt_ne (A : AsymScheme) (M : List Nat) (pub priv : A.Key)
    (hne : pub ≠ priv) (hlen : M.length ≤ 190) (hmem : ∀ x ∈ M, x < 256) :
    rsaDecrypt A (rsaEncrypt A M pub) priv = none := by
  rw [rsaEncrypt, rsaDecrypt,
    b64Decode_b64Encode _ (A.enc_mem pub M hlen hmem), A.dec_ne pub priv M hne hlen]

/-! ### Executable sample instances
Used to run the model on concrete inputs.  `xorCipher` is a keyed
involution on 16-byte blocks; `toyAsym` tags ciphertexts with the key
index and payload length.  Both satisfy the stated interfaces. -/

/-- Derive a 16-byte pad from arbitrary key material. -/
def xorPad (k : List Nat) : List Nat :=
  (k.map (· % 256) ++ List.replicate 16 0).take 16

theorem xorPad_isBlock (k : List Nat) : IsBlock (xorPad k) := by
  constructor
  · simp only [xorPad, List.length_take, List.length_append, List.length_map,
      List.length_replicate]
    omega
  · intro x hx
    have hx' := List.mem_of_mem_take hx
    rcases List.mem_append.mp hx' with h1 | h2
    · obtain ⟨y, _, rfl⟩ := List.mem_map.mp h1
      exact Nat.mod_lt y (by omega)
    · have := List.eq_of_mem_replicate h2
      omega

/-- Sample block cipher: byte-wise XOR with `xorPad k` (an involution). -/
def xorCipher : BlockCipher where
  encB k b := xorBlock b (xorPad k)
  decB k b := xorBlock b (xorPad k)
  encB_isBlock k b hb := xorBlock_isBlock b (xorPad k) hb (xorPad_isBlock k)
  decB_isBlock k b hb := xorBlock_isBlock b (xorPad k) hb (xorPad_isBlock k)
  decB_encB k b hb :=
    xorBlock_xorBlock b (xorPad k) (by rw [hb.1, (xorPad_isBlock k).1])
  encB_decB k b hb :=
    xorBlock_xorBlock b (xorPad k) (by rw [hb.1, (xorPad_isBlock k).1])

/-- Sample RSA-OAEP stand-in with eight key pairs. -/
def toyAsym : AsymScheme where
  Key := Fin 8
  enc k m :=
    if m.length ≤ 190 then (k.val :: m.length :: m) ++ List.replicate (254 - m.length) 0
    else []
  dec k c :=
    match c with
    | kid :: len :: rest => if kid = k.val then some (rest.take len) else none
    | _ => none
  enc_length k m h := by
    simp only [if_pos h, List.length_append, List.length_cons, List.length_replicate]
    omega
  enc_mem k m h hm := by
    simp only [if_pos h]
    intro x hx
    rcases List.mem_append.mp hx with h1 | h2
    · rcases List.mem_cons.mp h1 with rfl | h1'
      · exact lt_trans k.isLt (by omega)
      · rcases List.mem_cons.mp h1' with rfl | h1''
        · omega
        · exact hm x h1''
    · have := List.eq_of_mem_replicate h2
      omega
  dec_enc k m h := by
    simp only [if_pos h, List.cons_append, if_pos rfl, if_true, List.take_left]
  dec_ne k q m hne h := by
    simp only [if_pos h, List.cons_append]
    rw [if_neg]
    intro hc
    exact hne (Fin.ext hc)

/-- Modelled from the spec: the port base offsets live in `src/config.ts`,
which is not included in the provided sources; the spec (§3, §6) fixes
only that each role listens at a fixed integer base offset plus the
participant's identifier.  The concrete values below are arbitrary; no
claim depends on them. -/
def BASE_USER_PORT : Nat := 3000

/-- Modelled from the spec: see `BASE_USER_PORT`. -/
def BASE_ONION_ROUTER_PORT : Nat := 4000

/-- Sample 32-byte key material and 16-byte IVs for concrete runs. -/
def sampleKey1 : List Nat := List.replicate 32 7

def sampleKey2 : List Nat := List.replicate 32 11

def sampleKey3 : List Nat := List.replicate 32 13

def sampleIV1 : List Nat := List.replicate 16 1

def sampleIV2 : List Nat := List.replicate 16 2

def sampleIV3 : List Nat := List.replicate 16 3

/-- C2: for every symmetric key `k` and every plaintext `P`, including
the empty string, decrypting with the exported key material the result
of encrypting `P` under `k` returns `P`:
`symDecrypt (exportSymKey k) (symEncrypt k P) = P`.  The IV is the
explicit randomness of `symEncrypt`; key bytes, IV shape and plaintext
bytes are as `webcrypto` produces them. -/
theorem claim_C2_symmetric_roundtrip (C : BlockCipher) (k iv P : List Nat)
    (hk : ∀ x ∈ k, x < 256) (hiv : IsBlock iv) (hP : ∀ x ∈ P, x < 256) :
    symDecrypt C (exportSymKey k) (symEncrypt C k iv P) = some P :=
  symDecrypt_symEncrypt C k iv P hk hiv hP

/-- Witness for C2 at a concrete key, IV and the empty plaintext. -/
theorem claim_C2_witness :
    symDecrypt xorCipher (exportSymKey sampleKey1)
        (symEncrypt xorCipher sampleKey1 sampleIV1 []) = some [] :=
  claim_C2_symmetric_roundtrip xorCipher sampleKey1 sampleIV1 []
    (by decide) (by decide) (by decide)

/-- C3: for every RSA key pair and plaintext within the OAEP payload
bound (190 bytes for 2048-bit RSA-OAEP/SHA-256),
`rsaDecrypt (rsaEncrypt M pub) priv = M` for the matching private key,
and any non-matching private key yields a decryption error (`none`)
instead of a value. -/
theorem claim_C3_rsa_roundtrip (A : AsymScheme) (M : List Nat) (pub : A.Key)
    (hlen : M.length ≤ 190) (hmem : ∀ x ∈ M, x < 256) :
    rsaDecrypt A (rsaEncrypt A M pub) pub = some M ∧
      ∀ priv : A.Key, priv ≠ pub → rsaDecrypt A (rsaEncrypt A M pub) priv = none :=
  ⟨rsaDecrypt_rsaEncrypt A M pub hlen hmem,
   fun priv hne => rsaDecrypt_rsaEncrypt_ne A M pub priv (Ne.symm hne) hlen hmem⟩

/-- Witness for C3 at a concrete message and key pair. -/
theorem claim_C3_witness :
    rsaDecrypt toyAsym (rsaEncrypt toyAsym [104, 105] (0 : Fin 8)) (0 : Fin 8) =
        some [104, 105] ∧
      ∀ priv : toyAsym.Key, priv ≠ (0 : Fin 8) →
        rsaDecrypt toyAsym (rsaEncrypt toyAsym [104, 105] (0 : Fin 8)) priv = none :=
  claim_C3_rsa_roundtrip toyAsym [104, 105] (0 : Fin 8) (by decide) (by decide)

/-! ### Registry nodes and circuit selection
Models the `Node` registry entries and the function
`sélectionnerNœudsAléatoires` of `src/users/user.ts`: a Fisher–Yates
shuffle (`Math.random` outcomes passed in as `rand`) followed by
`slice(0, count)`. -/

structure Node (K : Type) where
  nodeId : Nat
  pubKey : K

/-- Swap the elements at positions `i` and `j` (out-of-range indices
leave the list unchanged; the shuffle only uses in-range indices). -/
def swapList (l : List α) (i j : Nat) : List α :=
  match l[i]?, l[j]? with
  | some a, some b => (l.set i b).set j a
  | _, _ => l

/-- Fisher–Yates loop: `fyAux rand i l` swaps positions `i, i-1, …, 1`
each with a random earlier-or-equal position, as the `for` loop in
`sélectionnerNœudsAléatoires` does counting down from `length - 1`. -/
def fyAux (rand : Nat → Nat) : Nat → List α → List α
  | 0, l => l
  | i + 1, l => fyAux rand i (swapList l (i + 1) (rand (i + 1) % (i + 2)))

/-- Model of `sélectionnerNœudsAléatoires`: shuffle a copy, then
`slice(0, count)`. -/
def selectionnerNoeudsAleatoires (rand : Nat → Nat) (nodes : List α) (count : Nat) : List α :=
  (fyAux rand (nodes.length - 1) nodes).take count

/-! ### The relay's /message handler
Models `routeurOnion.post("/message")` of
`src/onionRouters/simpleOnionRouter.ts`.  The outcome of the outbound
`fetch` to the next hop is the parameter `forwardOk`; the handler's
response is the returned `Bool` (`true` = 200 "success", `false` =
500 "error"), and the forwarded request is the returned
`Option (Nat × List Nat)` (next destination port, body). -/

structure RouterState where
  dernierMessageChiffreRecu : Option (List Nat)
  dernierMessageDechiffreRecu : Option (List Nat)
  derniereDestinationMessage : Option (Option Nat)

/-- Model of the relay handler.  `derniereDestinationMessage` stores an
`Option Nat` whose `none` models the JavaScript `NaN` stored when
`parseInt` fails; in that case the subsequent `fetch` on an invalid URL
throws, which the `catch` turns into a 500 response. -/
def routerMessage (C : BlockCipher) (A : AsymScheme) (clePrivee : A.Key)
    (forwardOk : Bool) (st : RouterState) (message : List Nat) :
    RouterState × Bool × Option (Nat × List Nat) :=
  let st1 := { st with dernierMessageChiffreRecu := some message }
  let cleChiffree := message.take 344
  let contenuChiffre := message.drop 344
  match rsaDecrypt A cleChiffree clePrivee with
  | none => (st1, false, none)
  | some cleSymetriqueBase64 =>
      match symDecrypt C cleSymetriqueBase64 contenuChiffre with
      | none => (st1, false, none)
      | some contenuDechiffre =>
          let destinationSuivante := parseIntJs (contenuDechiffre.take 10)
          let messageSuivant := contenuDechiffre.drop 10
          let st2 := { st1 with
            dernierMessageDechiffreRecu := some messageSuivant,
            derniereDestinationMessage := some destinationSuivante }
          match destinationSuivante with
          | none => (st2, false, none)
          | some d => if forwardOk then (st2, true, some (d, messageSuivant)) else (st2, false, none)

/-! ### The sender's layering and /sendMessage handler
Models `userApp.post("/sendMessage")` of `src/users/user.ts`. -/

/-- Layer construction shared by the three hops of `sendMessage`:
`cléCryptée + coucheCryptée` where `coucheCryptée` encrypts
`nextAddr ‖ data` under a fresh symmetric key, itself RSA-encrypted for
the hop. -/
def onionLayer (C : BlockCipher) (A : AsymScheme) (pub : A.Key)
    (k iv : List Nat) (nextAddr : Nat) (donnees : List Nat) : List Nat :=
  rsaEncrypt A (exportSymKey k) pub ++ symEncrypt C k iv (pad10 nextAddr ++ donnees)

/-- Model of the layering of `sendMessage` (lines building couches 3, 2
then 1): fresh keys `k3/k2/k1` and IVs for exit, middle and entry hops. -/
def buildOnion (C : BlockCipher) (A : AsymScheme)
    (entree inter sortie : Node A.Key) (k1 k2 k3 iv1 iv2 iv3 : List Nat)
    (message : List Nat) (destinationUserId : Nat) : List Nat :=
  let donnees3 := onionLayer C A sortie.pubKey k3 iv3
    (BASE_USER_PORT + destinationUserId) message
  let donnees2 := onionLayer C A inter.pubKey k2 iv2
    (BASE_ONION_ROUTER_PORT + sortie.nodeId) donnees3
  onionLayer C A entree.pubKey k1 iv1 (BASE_ONION_ROUTER_PORT + inter.nodeId) donnees2

structure UserState where
  dernierMessageRecu : Option (List Nat)
  dernierMessageEnvoye : Option (List Nat)
  dernierCircuit : List Nat

/-- Model of the user's /message receive handler: stores the body as
the final plaintext. -/
def userReceiveMessage (st : UserState) (message : List Nat) : UserState × Bool :=
  ({ st with dernierMessageRecu := some message }, true)

/-- Model of the /sendMessage handler.  `regNodes` is the (possibly
failing) registry fetch; `rand` the shuffle randomness; `k1 k2 k3` and
`iv1 iv2 iv3` the fresh keys and IVs; `forwardOk` the outcome of the
final `fetch` to the entry node.  Returns the new state, the response
(`true` = 200, `false` = 500) and the forwarded request, mirroring the
statement order of the handler: `dernierMessageEnvoyé` is assigned
before the `try` block, `dernierCircuit` right after circuit selection,
and the failure of any later step only yields a 500 response. -/
def sendMessage (C : BlockCipher) (A : AsymScheme)
    (regNodes : Option (List (Node A.Key))) (rand : Nat → Nat)
    (k1 k2 k3 iv1 iv2 iv3 : List Nat) (forwardOk : Bool)
    (st : UserState) (message : List Nat) (destinationUserId : Nat) :
    UserState × Bool × Option (Nat × List Nat) :=
  let st1 := { st with dernierMessageEnvoye := some message }
  match regNodes with
  | none => (st1, false, none)
  | some nodes =>
      let circuit := selectionnerNoeudsAleatoires rand nodes 3
      let st2 := { st1 with dernierCircuit := circuit.map (fun n => n.nodeId) }
      match circuit with
      | entree :: inter :: sortie :: _ =>
          let donnees := buildOnion C A entree inter sortie k1 k2 k3 iv1 iv2 iv3
            message destinationUserId
          if forwardOk then
            (st2, true, some (BASE_ONION_ROUTER_PORT + entree.nodeId, donnees))
          else (st2, false, none)
      | _ => (st2, false, none)

theorem exportSymKey_mem_lt (k : List Nat) : ∀ x ∈ exportSymKey k, x < 256 :=
  b64Encode_mem_lt k

theorem exportSymKey_length_le (k : List Nat) (hk32 : k.length = 32) :
    (exportSymKey k).length ≤ 190 := by
  rw [exportSymKey, b64Encode_length, hk32]
  omega

theorem rsaEncrypt_length_344 (A : AsymScheme) (m : List Nat) (pub : A.Key)
    (h : m.length ≤ 190) : (rsaEncrypt A m pub).length = 344 := by
  rw [rsaEncrypt, b64Encode_length, A.enc_length pub m h]

/-- Central inversion lemma: a relay holding the right private key
strips exactly the layer built by `onionLayer`, recovers the embedded
address and payload, and forwards the payload there. -/
theorem routerMessage_onionLayer (C : BlockCipher) (A : AsymScheme) (pub : A.Key)
    (forwardOk : Bool) (st : RouterState) (k iv donnees : List Nat) (nextAddr : Nat)
    (hk32 : k.length = 32) (hk : ∀ x ∈ k, x < 256) (hiv : IsBlock iv)
    (hd : ∀ x ∈ donnees, x < 256) (haddr : nextAddr < 10 ^ 10) :
    routerMessage C A pub forwardOk st (onionLayer C A pub k iv nextAddr donnees) =
      ({ st with
          dernierMessageChiffreRecu := some (onionLayer C A pub k iv nextAddr donnees),
          dernierMessageDechiffreRecu := some donnees,
          derniereDestinationMessage := some (some nextAddr) },
        forwardOk, if forwardOk then some (nextAddr, donnees) else none) := by
  have hexpmem := exportSymKey_mem_lt k
  have hexplen := exportSymKey_length_le k hk32
  have hrsalen := rsaEncrypt_length_344 A (exportSymKey k) pub hexplen
  have hP : ∀ x ∈ pad10 nextAddr ++ donnees, x < 256 := by
    intro x hx
    rcases List.mem_append.mp hx with h1 | h2
    · have := pad10_digits nextAddr x h1
      omega
    · exact hd x h2
  have hp10 : (pad10 nextAddr).length = 10 := pad10_length nextAddr haddr
  rw [routerMessage]
  conv_lhs =>
    rw [onionLayer, List.take_left' hrsalen, List.drop_left' hrsalen, ← onionLayer]
  rw [rsaDecrypt_rsaEncrypt A _ pub hexplen hexpmem]
  dsimp only
  rw [symDecrypt_symEncrypt C k iv _ hk hiv hP]
  dsimp only
  rw [List.take_left' hp10, List.drop_left' hp10, parseIntJs_pad10]
  cases forwardOk <;> rfl

theorem onionLayer_mem_lt (C : BlockCipher) (A : AsymScheme) (pub : A.Key)
    (k iv : List Nat) (nextAddr : Nat) (donnees : List Nat) :
    ∀ x ∈ onionLayer C A pub k iv nextAddr donnees, x < 256 := by
  intro x hx
  simp only [onionLayer, rsaEncrypt, symEncrypt] at hx
  rcases List.mem_append.mp hx with h1 | h2
  · exact b64Encode_mem_lt _ x h1
  · exact b64Encode_mem_lt _ x h2

theorem buildOnion_eq_layers (C : BlockCipher) (A : AsymScheme)
    (entree inter sortie : Node A.Key) (k1 k2 k3 iv1 iv2 iv3 message : List Nat)
    (destinationUserId : Nat) :
    buildOnion C A entree inter sortie k1 k2 k3 iv1 iv2 iv3 message destinationUserId =
      onionLayer C A entree.pubKey k1 iv1 (BASE_ONION_ROUTER_PORT + inter.nodeId)
        (onionLayer C A inter.pubKey k2 iv2 (BASE_ONION_ROUTER_PORT + sortie.nodeId)
          (onionLayer C A sortie.pubKey k3 iv3
            (BASE_USER_PORT + destinationUserId) message)) := rfl

/-- C1: for every circuit [A, B, C] and message, encoding with the
sender's layering and then letting each relay in turn perform the
split-decrypt-parse-forward steps delivers the literal message to the
destination; the exit relay's recovered next-hop address is the
destination's computed port `BASE_USER_PORT + destinationUserId`.
The intermediate envelopes are exhibited existentially; keys, IVs and
ports satisfy the shapes the code itself produces. -/
theorem claim_C1_end_to_end (C : BlockCipher) (A : AsymScheme)
    (nA nB nC : Node A.Key) (k1 k2 k3 iv1 iv2 iv3 message : List Nat)
    (destinationUserId : Nat) (stA stB stC : RouterState) (stU : UserState)
    (hk1 : k1.length = 32) (hk1m : ∀ x ∈ k1, x < 256)
    (hk2 : k2.length = 32) (hk2m : ∀ x ∈ k2, x < 256)
    (hk3 : k3.length = 32) (hk3m : ∀ x ∈ k3, x < 256)
    (hiv1 : IsBlock iv1) (hiv2 : IsBlock iv2) (hiv3 : IsBlock iv3)
    (hm : ∀ x ∈ message, x < 256)
    (hB : BASE_ONION_ROUTER_PORT + nB.nodeId < 10 ^ 10)
    (hC : BASE_ONION_ROUTER_PORT + nC.nodeId < 10 ^ 10)
    (hU : BASE_USER_PORT + destinationUserId < 10 ^ 10) :
    ∃ env2 env3 : List Nat,
      (routerMessage C A nA.pubKey true stA
          (buildOnion C A nA nB nC k1 k2 k3 iv1 iv2 iv3 message destinationUserId)).2 =
        (true, some (BASE_ONION_ROUTER_PORT + nB.nodeId, env2)) ∧
      (routerMessage C A nB.pubKey true stB env2).2 =
        (true, some (BASE_ONION_ROUTER_PORT + nC.nodeId, env3)) ∧
      (routerMessage C A nC.pubKey true stC env3).2 =
        (true, some (BASE_USER_PORT + destinationUserId, message)) ∧
      (routerMessage C A nC.pubKey true stC env3).1.derniereDestinationMessage =
        some (some (BASE_USER_PORT + destinationUserId)) ∧
      (userReceiveMessage stU message).1.dernierMessageRecu = some message := by
  refine ⟨onionLayer C A nB.pubKey k2 iv2 (BASE_ONION_ROUTER_PORT + nC.nodeId)
      (onionLayer C A nC.pubKey k3 iv3 (BASE_USER_PORT + destinationUserId) message),
    onionLayer C A nC.pubKey k3 iv3 (BASE_USER_PORT + destinationUserId) message,
    ?_, ?_, ?_, ?_, rfl⟩
  · rw [buildOnion_eq_layers,
      routerMessage_onionLayer C A nA.pubKey true stA k1 iv1 _ _ hk1 hk1m hiv1
        (onionLayer_mem_lt C A nB.pubKey k2 iv2 _ _) hB]
    rfl
  · rw [routerMessage_onionLayer C A nB.pubKey true stB k2 iv2 _ _ hk2 hk2m hiv2
      (onionLayer_mem_lt C A nC.pubKey k3 iv3 _ _) hC]
    rfl
  · rw [routerMessage_onionLayer C A nC.pubKey true stC k3 iv3 _ _ hk3 hk3m hiv3 hm hU]
    rfl
  · rw [routerMessage_onionLayer C A nC.pubKey true stC k3 iv3 _ _ hk3 hk3m hiv3 hm hU]

/-- Witness for C1 at a concrete circuit, message "hello" and
destination user 1. -/
theorem claim_C1_witness :
    ∃ env2 env3 : List Nat,
      (routerMessage xorCipher toyAsym (Node.pubKey ⟨1, (1 : Fin 8)⟩) true
          ⟨none, none, none⟩
          (buildOnion xorCipher toyAsym ⟨1, (1 : Fin 8)⟩ ⟨2, (2 : Fin 8)⟩ ⟨3, (3 : Fin 8)⟩
            sampleKey1 sampleKey2 sampleKey3 sampleIV1 sampleIV2 sampleIV3
            [104, 101, 108, 108, 111] 1)).2 =
        (true, some (BASE_ONION_ROUTER_PORT + (2 : Nat), env2)) ∧
      (routerMessage xorCipher toyAsym (Node.pubKey ⟨2, (2 : Fin 8)⟩) true
          ⟨none, none, none⟩ env2).2 =
        (true, some (BASE_ONION_ROUTER_PORT + (3 : Nat), env3)) ∧
      (routerMessage xorCipher toyAsym (Node.pubKey ⟨3, (3 : Fin 8)⟩) true
          ⟨none, none, none⟩ env3).2 =
        (true, some (BASE_USER_PORT + (1 : Nat), [104, 101, 108, 108, 111])) ∧
      (routerMessage xorCipher toyAsym (Node.pubKey ⟨3, (3 : Fin 8)⟩) true
          ⟨none, none, none⟩ env3).1.derniereDestinationMessage =
        some (some (BASE_USER_PORT + (1 : Nat))) ∧
      (userReceiveMessage ⟨none, none, []⟩ [104, 101, 108, 108, 111]).1.dernierMessageRecu =
        some [104, 101, 108, 108, 111] :=
  claim_C1_end_to_end xorCipher toyAsym ⟨1, (1 : Fin 8)⟩ ⟨2, (2 : Fin 8)⟩ ⟨3, (3 : Fin 8)⟩
    sampleKey1 sampleKey2 sampleKey3 sampleIV1 sampleIV2 sampleIV3
    [104, 101, 108, 108, 111] 1 ⟨none, none, none⟩ ⟨none, none, none⟩ ⟨none, none, none⟩
    ⟨none, none, []⟩ (by decide) (by decide) (by decide) (by decide) (by decide) (by decide)
    (by decide) (by decide) (by decide) (by decide) (by decide) (by decide) (by decide)

/-- One hop's layering data as the spec's encoder loop (§4.4) uses it:
the hop's public key, the fresh symmetric key and IV, and the
zero-padded address the current data should be delivered to. -/
structure SpecLayer (K : Type) where
  pubKey : K
  symKey : List Nat
  iv : List Nat
  nextAddr : Nat

/-- Follows the spec's words (§4.4), for refinement comparison with the
code's `buildOnion`: for each hop in reverse circuit order,
`ciphertext ← symmetricEncrypt(K, nextAddr ‖ data)`,
`encryptedKey ← asymmetricEncrypt(exportSymmetricKey(K), hop.publicKey)`,
`data ← encryptedKey ‖ ciphertext` (direct concatenation, no
separator). -/
def specOnionEncode (C : BlockCipher) (A : AsymScheme)
    (layers : List (SpecLayer A.Key)) (message : List Nat) : List Nat :=
  layers.foldl (fun donnees l =>
    rsaEncrypt A (exportSymKey l.symKey) l.pubKey ++
      symEncrypt C l.symKey l.iv (pad10 l.nextAddr ++ donnees)) message

/-- C4: the sender's layering builds the envelope from the innermost
layer outward, each layer being the separator-free concatenation
`encryptedKey ‖ ciphertext`, with the exit layer's embedded zero-padded
address the destination's port, the middle layer's the exit node's
port, the entry layer's the middle node's port, and each layer's
symmetric key encrypted under that hop's public key — i.e. `buildOnion`
coincides with the spec's reverse-order encoder loop applied to exactly
those three layers. -/
theorem claim_C4_encoder_structure (C : BlockCipher) (A : AsymScheme)
    (entree inter sortie : Node A.Key) (k1 k2 k3 iv1 iv2 iv3 message : List Nat)
    (destinationUserId : Nat) :
    buildOnion C A entree inter sortie k1 k2 k3 iv1 iv2 iv3 message destinationUserId =
      specOnionEncode C A
        [⟨sortie.pubKey, k3, iv3, BASE_USER_PORT + destinationUserId⟩,
         ⟨inter.pubKey, k2, iv2, BASE_ONION_ROUTER_PORT + sortie.nodeId⟩,
         ⟨entree.pubKey, k1, iv1, BASE_ONION_ROUTER_PORT + inter.nodeId⟩] message := rfl

/-- C5: the relay splits every received envelope at the constant offset
344 — `take 344` is the encrypted key blob handed to `rsaDecrypt`,
`drop 344` the symmetric ciphertext handed to `symDecrypt` — and after
the two decryptions forwards to the integer parsed from the first 10
characters of the plaintext the remainder from character 10 onward; the
offsets are constants, never derived from the message. -/
theorem claim_C5_relay_split (C : BlockCipher) (A : AsymScheme) (clePrivee : A.Key)
    (forwardOk : Bool) (st : RouterState) (m kb pt : List Nat) (d : Nat)
    (hk : rsaDecrypt A (m.take 344) clePrivee = some kb)
    (hs : symDecrypt C kb (m.drop 344) = some pt)
    (hd : parseIntJs (pt.take 10) = some d) :
    (routerMessage C A clePrivee forwardOk st m).2.2 =
      if forwardOk then some (d, pt.drop 10) else none := by
  rw [routerMessage, hk]
  dsimp only
  rw [hs]
  dsimp only
  rw [hd]
  cases forwardOk <;> rfl

/-- Witness for C5 on a concrete single-layer envelope. -/
theorem claim_C5_witness :
    (routerMessage xorCipher toyAsym (0 : Fin 8) true ⟨none, none, none⟩
        (onionLayer xorCipher toyAsym (0 : Fin 8) sampleKey1 sampleIV1 4001
          [104, 105])).2.2 = some (4001, [104, 105]) := by
  have h := claim_C5_relay_split xorCipher toyAsym (0 : Fin 8) true ⟨none, none, none⟩
    (onionLayer xorCipher toyAsym (0 : Fin 8) sampleKey1 sampleIV1 4001 [104, 105])
    (exportSymKey sampleKey1) (pad10 4001 ++ [104, 105]) 4001
    (by decide) (by decide) (by decide)
  simpa using h

/-! ### Permutation facts about the shuffle -/

theorem cons_set_perm (t : List α) (a : Nat) (x : α) (h : a < t.length) :
    (t[a] :: t.set a x).Perm (x :: t) := by
  induction t generalizing a with
  | nil => simp at h
  | cons y s ih =>
      match a with
      | 0 =>
          simp only [List.getElem_cons_zero, List.set_cons_zero]
          exact List.Perm.swap x y s
      | b + 1 =>
          have hb : b < s.length := by simpa using h
          simp only [List.getElem_cons_succ, List.set_cons_succ]
          exact (List.Perm.swap y s[b] (s.set b x)).trans
            (((ih b hb).cons y).trans (List.Perm.swap x y s))

theorem set_set_perm (l : List α) (i j : Nat) (hi : i < l.length) (hj : j < l.length) :
    ((l.set i (l.get ⟨j, hj⟩)).set j (l.get ⟨i, hi⟩)).Perm l := by
  simp only [List.get_eq_getElem]
  induction l generalizing i j with
  | nil => simp at hi
  | cons x t ih =>
      match i, j with
      | 0, 0 =>
          simp only [List.getElem_cons_zero, List.set_cons_zero, List.set_set]
          simp
      | 0, b + 1 =>
          have hb : b < t.length := by simpa using hj
          simp only [List.getElem_cons_zero, List.getElem_cons_succ,
            List.set_cons_zero, List.set_cons_succ]
          exact cons_set_perm t b x hb
      | a + 1, 0 =>
          have ha : a < t.length := by simpa using hi
          simp only [List.getElem_cons_zero, List.getElem_cons_succ,
            List.set_cons_zero, List.set_cons_succ]
          exact cons_set_perm t a x ha
      | a + 1, b + 1 =>
          have ha : a < t.length := by simpa using hi
          have hb : b < t.length := by simpa using hj
          simp only [List.getElem_cons_succ, List.set_cons_succ]
          exact (ih a b ha hb).cons x

theorem swapList_perm (l : List α) (i j : Nat) : (swapList l i j).Perm l := by
  rw [swapList]
  match hi : l[i]?, hj : l[j]? with
  | none, _ => exact List.Perm.refl l
  | some a, none => exact List.Perm.refl l
  | some a, some b =>
      have hi' : i < l.length := by
        by_contra hc
        rw [List.getElem?_eq_none (by omega)] at hi
        exact Option.noConfusion hi
      have hj' : j < l.length := by
        by_contra hc
        rw [List.getElem?_eq_none (by omega)] at hj
        exact Option.noConfusion hj
      have ha : a = l.get ⟨i, hi'⟩ := by
        rw [List.getElem?_eq_getElem hi'] at hi
        exact (Option.some.injEq _ _ ▸ hi).symm
      have hb : b = l.get ⟨j, hj'⟩ := by
        rw [List.getElem?_eq_getElem hj'] at hj
        exact (Option.some.injEq _ _ ▸ hj).symm
      subst ha hb
      exact set_set_perm l i j hi' hj'

theorem fyAux_perm (rand : Nat → Nat) (i : Nat) (l : List α) :
    (fyAux rand i l).Perm l := by
  induction i generalizing l with
  | zero => exact List.Perm.refl l
  | succ n ih =>
      exact (ih _).trans (swapList_perm l (n + 1) (rand (n + 1) % (n + 2)))

/-- C6 as amended: with fewer than 3 nodes, the selection function does
not fail — it returns all the available nodes (a permutation of the
whole input, shorter than requested). -/
theorem claim_C6_short_registry (rand : Nat → Nat) (nodes : List α)
    (h : nodes.length < 3) :
    (selectionnerNoeudsAleatoires rand nodes 3).length = nodes.length ∧
      (selectionnerNoeudsAleatoires rand nodes 3).Perm nodes := by
  have hp := fyAux_perm rand (nodes.length - 1) nodes
  have hl : (fyAux rand (nodes.length - 1) nodes).length = nodes.length := hp.length_eq
  constructor
  · rw [selectionnerNoeudsAleatoires, List.length_take, hl]
    omega
  · rw [selectionnerNoeudsAleatoires, List.take_of_length_le (by omega)]
    exact hp

/-- Witness for the amended C6 on a concrete two-node registry. -/
theorem claim_C6_witness :
    (selectionnerNoeudsAleatoires (fun _ => 0)
        [Node.mk 10 (0 : Fin 8), Node.mk 20 (1 : Fin 8)] 3).length = 2 ∧
      (selectionnerNoeudsAleatoires (fun _ => 0)
        [Node.mk 10 (0 : Fin 8), Node.mk 20 (1 : Fin 8)] 3).Perm
        [Node.mk 10 (0 : Fin 8), Node.mk 20 (1 : Fin 8)] :=
  claim_C6_short_registry (fun _ => 0)
    [Node.mk 10 (0 : Fin 8), Node.mk 20 (1 : Fin 8)] (by decide)

/-- Counterexample to C6 as stated: on a two-node registry the
selection does not fail with any error — it returns a two-node circuit
(the code has no `InsufficientNodesError` path; `slice(0, count)` of a
shorter array returns the whole array). -/
theorem claim_C6_counterexample :
    selectionnerNoeudsAleatoires (fun _ => 0)
        [Node.mk 10 (0 : Fin 8), Node.mk 20 (1 : Fin 8)] 3 =
      [Node.mk 20 (1 : Fin 8), Node.mk 10 (0 : Fin 8)] := rfl

/-- C7: with at least 3 nodes carrying pairwise-distinct identifiers,
selection returns exactly 3 nodes with pairwise-distinct identifiers,
all drawn from the input; and the returned order is the hop traversal
order — `sendMessage` uses index 0 as the entry hop, forwarding the
envelope to the entry node's port with indices 1 and 2 as middle and
exit. -/
theorem claim_C7_selection (A : AsymScheme) (rand : Nat → Nat)
    (nodes : List (Node A.Key)) (hlen : 3 ≤ nodes.length)
    (hnodup : (nodes.map Node.nodeId).Nodup) :
    (selectionnerNoeudsAleatoires rand nodes 3).length = 3 ∧
      ((selectionnerNoeudsAleatoires rand nodes 3).map Node.nodeId).Nodup ∧
      (∀ n ∈ selectionnerNoeudsAleatoires rand nodes 3, n ∈ nodes) ∧
      ∀ (C : BlockCipher) (k1 k2 k3 iv1 iv2 iv3 message : List Nat)
        (destinationUserId : Nat) (st : UserState)
        (e i s : Node A.Key) (rest : List (Node A.Key)),
        selectionnerNoeudsAleatoires rand nodes 3 = e :: i :: s :: rest →
        (sendMessage C A (some nodes) rand k1 k2 k3 iv1 iv2 iv3 true st
            message destinationUserId).2.2 =
          some (BASE_ONION_ROUTER_PORT + e.nodeId,
            buildOnion C A e i s k1 k2 k3 iv1 iv2 iv3 message destinationUserId) := by
  have hp := fyAux_perm rand (nodes.length - 1) nodes
  have hl : (fyAux rand (nodes.length - 1) nodes).length = nodes.length := hp.length_eq
  have hmapperm := hp.map Node.nodeId
  have hnodupfy : ((fyAux rand (nodes.length - 1) nodes).map Node.nodeId).Nodup :=
    hmapperm.nodup_iff.mpr hnodup
  refine ⟨?_, ?_, ?_, ?_⟩
  · rw [selectionnerNoeudsAleatoires, List.length_take, hl]
    omega
  · rw [selectionnerNoeudsAleatoires]
    exact hnodupfy.sublist ((List.take_sublist 3 _).map Node.nodeId)
  · intro n hn
    rw [selectionnerNoeudsAleatoires] at hn
    exact hp.mem_iff.mp (List.mem_of_mem_take hn)
  · intro C k1 k2 k3 iv1 iv2 iv3 message destinationUserId st e i s rest hsel
    rw [sendMessage, hsel]
    rfl

/-- Witness for C7 on a concrete three-node registry. -/
theorem claim_C7_witness :
    (selectionnerNoeudsAleatoires (fun n => n)
        [Node.mk 1 (1 : Fin 8), Node.mk 2 (2 : Fin 8), Node.mk 3 (3 : Fin 8)] 3).length = 3 ∧
      ((selectionnerNoeudsAleatoires (fun n => n)
        [Node.mk 1 (1 : Fin 8), Node.mk 2 (2 : Fin 8), Node.mk 3 (3 : Fin 8)] 3).map
          Node.nodeId).Nodup ∧
      (∀ n ∈ selectionnerNoeudsAleatoires (fun n => n)
          [Node.mk 1 (1 : Fin 8), Node.mk 2 (2 : Fin 8), Node.mk 3 (3 : Fin 8)] 3,
        n ∈ [Node.mk 1 (1 : Fin 8), Node.mk 2 (2 : Fin 8), Node.mk 3 (3 : Fin 8)]) ∧
      ∀ (C : BlockCipher) (k1 k2 k3 iv1 iv2 iv3 message : List Nat)
        (destinationUserId : Nat) (st : UserState)
        (e i s : Node (Fin 8)) (rest : List (Node (Fin 8))),
        selectionnerNoeudsAleatoires (fun n => n)
            [Node.mk 1 (1 : Fin 8), Node.mk 2 (2 : Fin 8), Node.mk 3 (3 : Fin 8)] 3 =
          e :: i :: s :: rest →
        (sendMessage C toyAsym
            (some [Node.mk 1 (1 : Fin 8), Node.mk 2 (2 : Fin 8), Node.mk 3 (3 : Fin 8)])
            (fun n => n) k1 k2 k3 iv1 iv2 iv3 true st message destinationUserId).2.2 =
          some (BASE_ONION_ROUTER_PORT + e.nodeId,
            buildOnion C toyAsym e i s k1 k2 k3 iv1 iv2 iv3 message destinationUserId) :=
  claim_C7_selection toyAsym (fun n => n)
    [Node.mk 1 (1 : Fin 8), Node.mk 2 (2 : Fin 8), Node.mk 3 (3 : Fin 8)]
    (by decide) (by decide)

/-- C9: every invocation of `sendMessage` stores the request's message
text in `dernierMessageEnvoyé` — the assignment precedes the registry
fetch, circuit selection and all encryption, so the field holds the
message even on runs that fail and report an error (500): the operation
is not atomic with respect to this state.  Failing runs exhibited: a
failed registry fetch, a registry with fewer than 3 nodes, and a failed
forward to the entry node. -/
theorem claim_C9_sent_before_failure (C : BlockCipher) (A : AsymScheme)
    (regNodes : Option (List (Node A.Key))) (rand : Nat → Nat)
    (k1 k2 k3 iv1 iv2 iv3 : List Nat) (forwardOk : Bool) (st : UserState)
    (message : List Nat) (destinationUserId : Nat) :
    (sendMessage C A regNodes rand k1 k2 k3 iv1 iv2 iv3 forwardOk st
        message destinationUserId).1.dernierMessageEnvoye = some message ∧
      (regNodes = none →
        (sendMessage C A regNodes rand k1 k2 k3 iv1 iv2 iv3 forwardOk st
          message destinationUserId).2.1 = false) ∧
      (∀ nodes, regNodes = some nodes → nodes.length < 3 →
        (sendMessage C A regNodes rand k1 k2 k3 iv1 iv2 iv3 forwardOk st
          message destinationUserId).2.1 = false) ∧
      (forwardOk = false →
        (sendMessage C A regNodes rand k1 k2 k3 iv1 iv2 iv3 forwardOk st
          message destinationUserId).2.1 = false) := by
  refine ⟨?_, ?_, ?_, ?_⟩
  · match regNodes with
    | none => rfl
    | some nodes =>
        rw [sendMessage]
        rcases hsel : selectionnerNoeudsAleatoires rand nodes 3 with
          _ | ⟨e, _ | ⟨i, _ | ⟨s, rest⟩⟩⟩
        all_goals cases forwardOk <;> rfl
  · rintro rfl
    rfl
  · rintro nodes rfl hshort
    have hp := fyAux_perm rand (nodes.length - 1) nodes
    have hlen : (selectionnerNoeudsAleatoires rand nodes 3).length = nodes.length := by
      rw [selectionnerNoeudsAleatoires, List.length_take, hp.length_eq]
      omega
    rw [sendMessage]
    rcases hsel : selectionnerNoeudsAleatoires rand nodes 3 with
      _ | ⟨e, _ | ⟨i, _ | ⟨s, rest⟩⟩⟩
    · rfl
    · rfl
    · rfl
    · exfalso
      rw [hsel] at hlen
      simp only [List.length_cons] at hlen
      omega
  · rintro rfl
    match regNodes with
    | none => rfl
    | some nodes =>
        rw [sendMessage]
        rcases hsel : selectionnerNoeudsAleatoires rand nodes 3 with
          _ | ⟨e, _ | ⟨i, _ | ⟨s, rest⟩⟩⟩
        all_goals rfl

/-- Witness for C9 on a concrete failing run (registry fetch failed). -/
theorem claim_C9_witness :
    (sendMessage xorCipher toyAsym none (fun _ => 0) sampleKey1 sampleKey2 sampleKey3
        sampleIV1 sampleIV2 sampleIV3 true ⟨none, none, []⟩ [104, 105]
        2).1.dernierMessageEnvoye = some [104, 105] ∧
      ((none : Option (List (Node (Fin 8)))) = none →
        (sendMessage xorCipher toyAsym none (fun _ => 0) sampleKey1 sampleKey2 sampleKey3
          sampleIV1 sampleIV2 sampleIV3 true ⟨none, none, []⟩ [104, 105] 2).2.1 = false) ∧
      (∀ nodes, (none : Option (List (Node (Fin 8)))) = some nodes → nodes.length < 3 →
        (sendMessage xorCipher toyAsym none (fun _ => 0) sampleKey1 sampleKey2 sampleKey3
          sampleIV1 sampleIV2 sampleIV3 true ⟨none, none, []⟩ [104, 105] 2).2.1 = false) ∧
      ((true : Bool) = false →
        (sendMessage xorCipher toyAsym none (fun _ => 0) sampleKey1 sampleKey2 sampleKey3
          sampleIV1 sampleIV2 sampleIV3 true ⟨none, none, []⟩ [104, 105] 2).2.1 = false) :=
  claim_C9_sent_before_failure xorCipher toyAsym none (fun _ => 0) sampleKey1 sampleKey2
    sampleKey3 sampleIV1 sampleIV2 sampleIV3 true ⟨none, none, []⟩ [104, 105] 2

/-- C10 as amended: the relay stores the incoming envelope in
`dernierMessageChiffréReçu` before any split or decryption, and updates
`dernierMessageDéchiffréReçu` and `dernièreDestinationMessage` only
after both decryptions have succeeded — so on an invocation failing in
either decryption those two fields keep their previous values; an
invocation that fails only at the forwarding step (or because the
recovered address does not parse) has however already updated both
fields before responding with an error. -/
theorem claim_C10_router_state_order (C : BlockCipher) (A : AsymScheme)
    (clePrivee : A.Key) (forwardOk : Bool) (st : RouterState) (m : List Nat) :
    (routerMessage C A clePrivee forwardOk st m).1.dernierMessageChiffreRecu = some m ∧
      (rsaDecrypt A (m.take 344) clePrivee = none →
        (routerMessage C A clePrivee forwardOk st m).1.dernierMessageDechiffreRecu =
            st.dernierMessageDechiffreRecu ∧
          (routerMessage C A clePrivee forwardOk st m).1.derniereDestinationMessage =
            st.derniereDestinationMessage ∧
          (routerMessage C A clePrivee forwardOk st m).2.1 = false) ∧
      (∀ kb, rsaDecrypt A (m.take 344) clePrivee = some kb →
        symDecrypt C kb (m.drop 344) = none →
        (routerMessage C A clePrivee forwardOk st m).1.dernierMessageDechiffreRecu =
            st.dernierMessageDechiffreRecu ∧
          (routerMessage C A clePrivee forwardOk st m).1.derniereDestinationMessage =
            st.derniereDestinationMessage ∧
          (routerMessage C A clePrivee forwardOk st m).2.1 = false) ∧
      (∀ kb pt, rsaDecrypt A (m.take 344) clePrivee = some kb →
        symDecrypt C kb (m.drop 344) = some pt →
        (routerMessage C A clePrivee forwardOk st m).1.dernierMessageDechiffreRecu =
            some (pt.drop 10) ∧
          (routerMessage C A clePrivee forwardOk st m).1.derniereDestinationMessage =
            some (parseIntJs (pt.take 10))) := by
  refine ⟨?_, ?_, ?_, ?_⟩
  · rw [routerMessage]
    rcases h1 : rsaDecrypt A (m.take 344) clePrivee with _ | kb
    · rfl
    · dsimp only
      rcases h2 : symDecrypt C kb (m.drop 344) with _ | pt
      · rfl
      · dsimp only
        rcases h3 : parseIntJs (pt.take 10) with _ | d
        · rfl
        · cases forwardOk <;> rfl
  · intro h1
    rw [routerMessage, h1]
    exact ⟨rfl, rfl, rfl⟩
  · intro kb h1 h2
    rw [routerMessage, h1]
    dsimp only
    rw [h2]
    exact ⟨rfl, rfl, rfl⟩
  · intro kb pt h1 h2
    rw [routerMessage, h1]
    dsimp only
    rw [h2]
    dsimp only
    rcases h3 : parseIntJs (pt.take 10) with _ | d
    · exact ⟨rfl, rfl⟩
    · cases forwardOk <;> exact ⟨rfl, rfl⟩

/-- Witness for the amended C10 on a concrete envelope whose key blob
does not decrypt (a relay holding a different private key). -/
theorem claim_C10_witness :
    (routerMessage xorCipher toyAsym (5 : Fin 8) true ⟨none, some [1], some (some 9)⟩
        (onionLayer xorCipher toyAsym (6 : Fin 8) sampleKey3 sampleIV3 4003
          [98])).1.dernierMessageChiffreRecu =
      some (onionLayer xorCipher toyAsym (6 : Fin 8) sampleKey3 sampleIV3 4003 [98]) ∧
    (routerMessage xorCipher toyAsym (5 : Fin 8) true ⟨none, some [1], some (some 9)⟩
        (onionLayer xorCipher toyAsym (6 : Fin 8) sampleKey3 sampleIV3 4003
          [98])).1.dernierMessageDechiffreRecu = some [1] ∧
      (routerMessage xorCipher toyAsym (5 : Fin 8) true ⟨none, some [1], some (some 9)⟩
        (onionLayer xorCipher toyAsym (6 : Fin 8) sampleKey3 sampleIV3 4003
          [98])).1.derniereDestinationMessage = some (some 9) ∧
      (routerMessage xorCipher toyAsym (5 : Fin 8) true ⟨none, some [1], some (some 9)⟩
        (onionLayer xorCipher toyAsym (6 : Fin 8) sampleKey3 sampleIV3 4003
          [98])).2.1 = false := by
  have h := claim_C10_router_state_order xorCipher toyAsym (5 : Fin 8) true
    ⟨none, some [1], some (some 9)⟩
    (onionLayer xorCipher toyAsym (6 : Fin 8) sampleKey3 sampleIV3 4003 [98])
  exact ⟨h.1, h.2.1 (by decide)⟩

/-- Counterexample to C10 as stated: a run that fails (500 response,
because the forward to the next hop fails) yet has updated both
`dernierMessageDéchiffréReçu` and `dernièreDestinationMessage`, which
therefore do not keep their previous values on every failed
invocation. -/
theorem claim_C10_counterexample :
    (routerMessage xorCipher toyAsym (4 : Fin 8) false ⟨none, none, none⟩
        (onionLayer xorCipher toyAsym (4 : Fin 8) sampleKey2 sampleIV2 4002
          [97])).2.1 = false ∧
      (routerMessage xorCipher toyAsym (4 : Fin 8) false ⟨none, none, none⟩
        (onionLayer xorCipher toyAsym (4 : Fin 8) sampleKey2 sampleIV2 4002
          [97])).1.derniereDestinationMessage = some (some 4002) ∧
      (routerMessage xorCipher toyAsym (4 : Fin 8) false ⟨none, none, none⟩
        (onionLayer xorCipher toyAsym (4 : Fin 8) sampleKey2 sampleIV2 4002
          [97])).1.dernierMessageDechiffreRecu = some [97] := by
  rw [routerMessage_onionLayer xorCipher toyAsym (4 : Fin 8) false ⟨none, none, none⟩
    sampleKey2 sampleIV2 [97] 4002 (by decide) (by decide) (by decide) (by decide)
    (by decide)]
  exact ⟨rfl, rfl, rfl⟩

/-! ### CBC difference analysis, towards the tampering claim -/

theorem cbcDec_isBlock (C : BlockCipher) (k : List Nat) (prev : List Nat)
    (cs : List (List Nat)) (hprev : IsBlock prev) (hcs : ∀ c ∈ cs, IsBlock c) :
    ∀ b ∈ cbcDec C k prev cs, IsBlock b := by
  induction cs generalizing prev with
  | nil => simp [cbcDec]
  | cons c rest ih =>
      simp only [cbcDec, List.mem_cons]
      rintro b (rfl | hb)
      · exact xorBlock_isBlock _ _ (C.decB_isBlock k c (hcs c (by simp))) hprev
      · exact ih c (hcs c (by simp)) (fun c' hc' => hcs c' (by simp [hc'])) b hb

theorem getLastD_cons (x : α) (t : List α) (d : α) :
    (x :: t).getLast?.getD d = t.getLast?.getD x := by
  match t with
  | [] => rfl
  | y :: s =>
      rw [List.getLast?_cons_cons, List.getLast?_eq_getLast (y :: s) (by simp)]
      rfl

theorem cbcDec_append (C : BlockCipher) (k : List Nat) (P Q : List (List Nat))
    (prev : List Nat) :
    cbcDec C k prev (P ++ Q) =
      cbcDec C k prev P ++ cbcDec C k (P.getLast?.getD prev) Q := by
  induction P generalizing prev with
  | nil => simp [cbcDec]
  | cons c rest ih =>
      simp only [List.cons_append, cbcDec, List.append_eq]
      rw [ih c, getLastD_cons]

theorem getLastD_isBlock (P : List (List Nat)) (iv : List Nat) (hiv : IsBlock iv)
    (hP : ∀ c ∈ P, IsBlock c) : IsBlock (P.getLast?.getD iv) := by
  cases hgl : P.getLast? with
  | none => exact hiv
  | some x => exact hP x (List.mem_of_mem_getLast? hgl)

/-- Stripping PKCS#7 padding only looks at the final 16 bytes, so it
commutes with replacing anything before a 16-byte-or-longer suffix. -/
theorem unpad16_append (a S : List Nat) (hS : 16 ≤ S.length) :
    unpad16 (a ++ S) = Option.map (fun s0 => a ++ s0) (unpad16 S) := by
  have hSne : S ≠ [] := by
    rintro rfl
    simp at hS
  rw [unpad16, unpad16, List.getLast?_append_of_ne_nil a hSne]
  cases hgl : S.getLast? with
  | none => rfl
  | some p =>
      dsimp only
      by_cases h16 : 1 ≤ p ∧ p ≤ 16
      · have hple : p ≤ S.length := le_trans h16.2 hS
        have harith : (a ++ S).length - p = a.length + (S.length - p) := by
          simp only [List.length_append]
          omega
        have hdrop : (a ++ S).drop ((a ++ S).length - p) = S.drop (S.length - p) := by
          rw [harith, List.drop_append]
        have htake : (a ++ S).take ((a ++ S).length - p) = a ++ S.take (S.length - p) := by
          rw [harith, List.take_append]
        by_cases hall : (S.drop (S.length - p)).all (fun x => x == p)
        · rw [if_pos ⟨h16.1, h16.2, by simp only [List.length_append]; omega,
              by rw [hdrop]; exact hall⟩,
            if_pos ⟨h16.1, h16.2, hple, hall⟩, htake]
          rfl
        · rw [if_neg, if_neg]
          · rfl
          · intro hc
            exact hall hc.2.2.2
          · intro hc
            rw [hdrop] at hc
            exact hall hc.2.2.2
      · rw [if_neg, if_neg]
        · rfl
        · intro hc
          exact h16 ⟨hc.1, hc.2.1⟩
        · intro hc
          exact h16 ⟨hc.1, hc.2.1⟩

/-- CBC malleability: replacing one interior ciphertext block (not the
first, and at least two blocks before the end) still decrypts and
unpads successfully, leaves the plaintext prefix before the tampered
block intact, but changes the recovered plaintext. -/
theorem symDecrypt_interior_tamper (C : BlockCipher) (k iv pt0 : List Nat)
    (P T : List (List Nat)) (cj c1 b' : List Nat)
    (hk : ∀ x ∈ k, x < 256) (hiv : IsBlock iv) (hpt0 : ∀ x ∈ pt0, x < 256)
    (hsplit : cbcEnc C k iv (chunks16 (pad16 pt0)) = P ++ cj :: c1 :: T)
    (hT : 1 ≤ T.length) (hb' : IsBlock b') (hbne : b' ≠ cj) :
    ∃ ptx, symDecrypt C (exportSymKey k)
        (b64Encode (iv ++ (P ++ b' :: c1 :: T).flatten)) = some ptx ∧
      ptx.take (16 * P.length) = pt0.take (16 * P.length) ∧
      ptx.length = pt0.length ∧ ptx ≠ pt0 := by
  have hbs := chunks16_blocks (pad16 pt0) (pad16_length_mod pt0) (pad16_mem_lt pt0 hpt0)
  have hcsAll : ∀ c ∈ P ++ cj :: c1 :: T, IsBlock c := by
    rw [← hsplit]
    exact cbcEnc_isBlock C k iv _ hiv hbs
  have hPb : ∀ c ∈ P, IsBlock c := fun c hc => hcsAll c (List.mem_append_left _ hc)
  have hcj : IsBlock cj := hcsAll cj (by simp)
  have hc1 : IsBlock c1 := hcsAll c1 (by simp)
  have hTb : ∀ c ∈ T, IsBlock c := fun c hc => hcsAll c (by simp [hc])
  have hp0 : IsBlock (P.getLast?.getD iv) := getLastD_isBlock P iv hiv hPb
  have hA0b : ∀ b ∈ cbcDec C k iv P, IsBlock b := cbcDec_isBlock C k iv P hiv hPb
  have hRb : ∀ b ∈ cbcDec C k c1 T, IsBlock b := cbcDec_isBlock C k c1 T hc1 hTb
  have hA0len : (cbcDec C k iv P).flatten.length = 16 * P.length := by
    rw [flatten_length_16 _ (fun b hb => (hA0b b hb).1), cbcDec_length]
  have hRlen : (cbcDec C k c1 T).flatten.length = 16 * T.length := by
    rw [flatten_length_16 _ (fun b hb => (hRb b hb).1), cbcDec_length]
  have hRlen16 : 16 ≤ (cbcDec C k c1 T).flatten.length := by
    rw [hRlen]
    omega
  have hX'len : (xorBlock (C.decB k b') (P.getLast?.getD iv)).length = 16 := by
    rw [xorBlock_length, (C.decB_isBlock k b' hb').1, hp0.1]
    omega
  have hXlen : (xorBlock (C.decB k cj) (P.getLast?.getD iv)).length = 16 := by
    rw [xorBlock_length, (C.decB_isBlock k cj hcj).1, hp0.1]
    omega
  have hY'len : (xorBlock (C.decB k c1) b').length = 16 := by
    rw [xorBlock_length, (C.decB_isBlock k c1 hc1).1, hb'.1]
    omega
  have hYlen : (xorBlock (C.decB k c1) cj).length = 16 := by
    rw [xorBlock_length, (C.decB_isBlock k c1 hc1).1, hcj.1]
    omega
  have hdec : cbcDec C k iv (P ++ cj :: c1 :: T) =
      cbcDec C k iv P ++ xorBlock (C.decB k cj) (P.getLast?.getD iv) ::
        xorBlock (C.decB k c1) cj :: cbcDec C k c1 T := by
    rw [cbcDec_append]
    rfl
  have hdec' : cbcDec C k iv (P ++ b' :: c1 :: T) =
      cbcDec C k iv P ++ xorBlock (C.decB k b') (P.getLast?.getD iv) ::
        xorBlock (C.decB k c1) b' :: cbcDec C k c1 T := by
    rw [cbcDec_append]
    rfl
  have horig : (cbcDec C k iv (P ++ cj :: c1 :: T)).flatten = pad16 pt0 := by
    rw [← hsplit, cbcDec_cbcEnc C k iv _ hiv hbs, chunks16_flatten_inv]
  have hflat : pad16 pt0 =
      ((cbcDec C k iv P).flatten ++ xorBlock (C.decB k cj) (P.getLast?.getD iv) ++
        xorBlock (C.decB k c1) cj) ++ (cbcDec C k c1 T).flatten := by
    rw [← horig, hdec, List.flatten_append, List.flatten_cons, List.flatten_cons]
    simp [List.append_assoc]
  have hcs'blocks : ∀ c ∈ P ++ b' :: c1 :: T, IsBlock c := by
    intro c hc
    rcases List.mem_append.mp hc with h1 | h2
    · exact hPb c h1
    · rcases List.mem_cons.mp h2 with rfl | h3
      · exact hb'
      · rcases List.mem_cons.mp h3 with rfl | h4
        · exact hc1
        · exact hTb c h4
  have hallmem : ∀ x ∈ iv ++ (P ++ b' :: c1 :: T).flatten, x < 256 := by
    intro x hx
    rcases List.mem_append.mp hx with h1 | h2
    · exact hiv.2 x h1
    · obtain ⟨c, hc, hxc⟩ := List.mem_flatten.mp h2
      exact (hcs'blocks c hc).2 x hxc
  have hctlen : (P ++ b' :: c1 :: T).flatten.length = 16 * (P ++ b' :: c1 :: T).length :=
    flatten_length_16 _ (fun c hc => (hcs'blocks c hc).1)
  rw [symDecrypt, importSymKey, exportSymKey, b64Decode_b64Encode k hk,
    b64Decode_b64Encode _ hallmem, List.take_left' hiv.1, List.drop_left' hiv.1,
    if_pos ⟨hiv.1, by rw [hctlen]; omega⟩,
    chunks16_flatten _ (fun c hc => (hcs'blocks c hc).1), hdec',
    List.flatten_append, List.flatten_cons, List.flatten_cons, ← List.append_assoc,
    ← List.append_assoc]
  have hunorig : unpad16 (((cbcDec C k iv P).flatten ++
      xorBlock (C.decB k cj) (P.getLast?.getD iv) ++
      xorBlock (C.decB k c1) cj) ++ (cbcDec C k c1 T).flatten) = some pt0 := by
    rw [← hflat, unpad16_pad16]
  rw [unpad16_append _ _ hRlen16] at hunorig
  rw [unpad16_append _ _ hRlen16]
  cases hs0 : unpad16 ((cbcDec C k c1 T).flatten) with
  | none =>
      rw [hs0] at hunorig
      simp at hunorig
  | some s0 =>
      rw [hs0] at hunorig
      simp only [Option.map_some', Option.some.injEq] at hunorig
      refine ⟨_, rfl, ?_, ?_, ?_⟩
      · rw [← hunorig]
        rw [List.take_append_of_le_length, List.take_append_of_le_length,
          List.take_append_of_le_length (by omega),
          List.take_append_of_le_length, List.take_append_of_le_length,
          List.take_append_of_le_length (by omega)]
        · simp only [List.length_append, hA0len, hXlen]
          omega
        · simp only [List.length_append, hA0len, hXlen, hYlen]
          omega
        · simp only [List.length_append, hA0len, hX'len]
          omega
        · simp only [List.length_append, hA0len, hX'len, hY'len]
          omega
      · rw [← hunorig]
        simp only [List.length_append, hA0len, hXlen, hYlen, hX'len, hY'len]
      · intro he
        rw [← hunorig] at he
        have h1 := List.append_cancel_right he
        have h2 := List.append_inj_left h1 (by
          simp only [List.length_append, hA0len, hX'len, hXlen])
        have h3 := List.append_cancel_left h2
        have h4 := xorBlock_left_injective _ _ _
          (by rw [(C.decB_isBlock k b' hb').1, hp0.1])
          (by rw [(C.decB_isBlock k cj hcj).1, hp0.1]) h3
        have h5 := congrArg (C.encB k) h4
        rw [C.encB_decB k _ hb', C.encB_decB k _ hcj] at h5
        exact hbne h5

/-- C8 as amended: single-byte ciphertext tampering is not detected in
general.  For a layer whose padded plaintext spans at least four
blocks, changing one byte of an interior ciphertext block (not the
first block, and at least two blocks before the end — positions `P`,
with `cj` the tampered block) yields an envelope the relay processes
with a 200 success response, forwarding to the correct embedded
address a payload different from the original one.  Only modifications
that corrupt the PKCS#7 padding block or the 10-character address field
can surface as a decryption or parse error. -/
theorem claim_C8_interior_tamper_forwarded (C : BlockCipher) (A : AsymScheme)
    (pub : A.Key) (st : RouterState) (k iv data : List Nat) (addr : Nat)
    (P T : List (List Nat)) (cj c1 : List Nat) (r y : Nat)
    (hk32 : k.length = 32) (hk : ∀ x ∈ k, x < 256) (hiv : IsBlock iv)
    (hd : ∀ x ∈ data, x < 256) (haddr : addr < 10 ^ 10)
    (hsplit : cbcEnc C k iv (chunks16 (pad16 (pad10 addr ++ data))) = P ++ cj :: c1 :: T)
    (hP : 1 ≤ P.length) (hT : 1 ≤ T.length)
    (hr : r < 16) (hy : y < 256) (hyne : y ≠ cj.getD r 0) :
    (routerMessage C A pub true st
        (rsaEncrypt A (exportSymKey k) pub ++
          b64Encode (iv ++ (P ++ cj.set r y :: c1 :: T).flatten))).2.1 = true ∧
      ∃ payload',
        (routerMessage C A pub true st
            (rsaEncrypt A (exportSymKey k) pub ++
              b64Encode (iv ++ (P ++ cj.set r y :: c1 :: T).flatten))).2.2 =
          some (addr, payload') ∧ payload' ≠ data := by
  have hpt0m : ∀ x ∈ pad10 addr ++ data, x < 256 := by
    intro x hx
    rcases List.mem_append.mp hx with h1 | h2
    · have := pad10_digits addr x h1
      omega
    · exact hd x h2
  have hbs := chunks16_blocks (pad16 (pad10 addr ++ data)) (pad16_length_mod _)
    (pad16_mem_lt _ hpt0m)
  have hcsAll : ∀ c ∈ P ++ cj :: c1 :: T, IsBlock c := by
    rw [← hsplit]
    exact cbcEnc_isBlock C k iv _ hiv hbs
  have hcj : IsBlock cj := hcsAll cj (by simp)
  have hrlen : r < cj.length := by
    rw [hcj.1]
    exact hr
  have hb'blk : IsBlock (cj.set r y) := by
    refine ⟨by rw [List.length_set, hcj.1], ?_⟩
    intro x hx
    rcases List.mem_or_eq_of_mem_set hx with h1 | rfl
    · exact hcj.2 x h1
    · exact hy
  have hbne : cj.set r y ≠ cj := by
    intro he
    have h1 : (cj.set r y)[r]? = cj[r]? := by rw [he]
    rw [List.getElem?_set_self hrlen, List.getElem?_eq_getElem hrlen] at h1
    have h2 := Option.some.inj h1
    simp only [List.getD_eq_getElem?_getD, List.getElem?_eq_getElem hrlen,
      Option.getD_some] at hyne
    exact hyne h2
  have hexpmem := exportSymKey_mem_lt k
  have hexplen := exportSymKey_length_le k hk32
  have hrsalen := rsaEncrypt_length_344 A (exportSymKey k) pub hexplen
  obtain ⟨ptx, hsym, hptk, hlen, hptne⟩ := symDecrypt_interior_tamper C k iv
    (pad10 addr ++ data) P T cj c1 (cj.set r y) hk hiv hpt0m hsplit hT hb'blk hbne
  have hp10 : (pad10 addr).length = 10 := pad10_length addr haddr
  have htk10 : ptx.take 10 = pad10 addr := by
    have h1 := congrArg (List.take 10) hptk
    rw [List.take_take, List.take_take] at h1
    rw [Nat.min_eq_left (by omega)] at h1
    rw [h1, List.take_left' hp10]
  have hdrop : ptx.drop 10 ≠ data := by
    intro he
    apply hptne
    calc ptx = ptx.take 10 ++ ptx.drop 10 := (List.take_append_drop 10 ptx).symm
      _ = pad10 addr ++ data := by rw [htk10, he]
  rw [routerMessage, List.take_left' hrsalen, List.drop_left' hrsalen,
    rsaDecrypt_rsaEncrypt A _ pub hexplen hexpmem]
  dsimp only
  rw [hsym]
  dsimp only
  rw [htk10, parseIntJs_pad10]
  exact ⟨rfl, ptx.drop 10, rfl, hdrop⟩

/-- Witness for the amended C8: concrete four-block layer for address
3005 and a 40-byte payload, with byte 0 of ciphertext block 1 changed
to 255. -/
theorem claim_C8_witness :
    (routerMessage xorCipher toyAsym (7 : Fin 8) true ⟨none, none, none⟩
        (rsaEncrypt toyAsym (exportSymKey sampleKey1) (7 : Fin 8) ++
          b64Encode (sampleIV1 ++
            ([[54, 54, 54, 54, 54, 54, 53, 54, 54, 51, 98, 98, 98, 98, 98, 98]] ++
              [85, 85, 85, 85, 85, 85, 86, 85, 85, 80, 1, 1, 1, 1, 1, 1].set 0 255 ::
              [54, 54, 54, 54, 54, 54, 53, 54, 54, 51, 98, 98, 98, 98, 98, 98] ::
              [[85, 85, 63, 63, 63, 63, 60, 63, 63, 58, 107, 107, 107, 107, 107,
                107]]).flatten))).2.1 = true ∧
      ∃ payload',
        (routerMessage xorCipher toyAsym (7 : Fin 8) true ⟨none, none, none⟩
            (rsaEncrypt toyAsym (exportSymKey sampleKey1) (7 : Fin 8) ++
              b64Encode (sampleIV1 ++
                ([[54, 54, 54, 54, 54, 54, 53, 54, 54, 51, 98, 98, 98, 98, 98, 98]] ++
                  [85, 85, 85, 85, 85, 85, 86, 85, 85, 80, 1, 1, 1, 1, 1, 1].set 0 255 ::
                  [54, 54, 54, 54, 54, 54, 53, 54, 54, 51, 98, 98, 98, 98, 98, 98] ::
                  [[85, 85, 63, 63, 63, 63, 60, 63, 63, 58, 107, 107, 107, 107, 107,
                    107]]).flatten))).2.2 =
          some (3005, payload') ∧ payload' ≠ List.replicate 40 100 :=
  claim_C8_interior_tamper_forwarded xorCipher toyAsym (7 : Fin 8) ⟨none, none, none⟩
    sampleKey1 sampleIV1 (List.replicate 40 100) 3005
    [[54, 54, 54, 54, 54, 54, 53, 54, 54, 51, 98, 98, 98, 98, 98, 98]]
    [[85, 85, 63, 63, 63, 63, 60, 63, 63, 58, 107, 107, 107, 107, 107, 107]]
    [85, 85, 85, 85, 85, 85, 86, 85, 85, 80, 1, 1, 1, 1, 1, 1]
    [54, 54, 54, 54, 54, 54, 53, 54, 54, 51, 98, 98, 98, 98, 98, 98]
    0 255 (by decide) (by decide) (by decide) (by decide) (by decide) (by decide)
    (by decide) (by decide) (by decide) (by decide) (by decide)

set_option maxRecDepth 100000 in
/-- Counterexample to C8 as stated, at an explicit concrete input: the
valid single-layer envelope for address 3005 (port of user 5) and the
40-byte payload `replicate 40 100`, with byte 16 of its CBC ciphertext
(byte 0 of interior block 1) changed from 85 to 255.  The relay does
not raise any decryption or parse error: it responds 200 "success" and
silently forwards to the correct address 3005 a payload that differs
from the original in bytes 6 and 22. -/
theorem claim_C8_counterexample :
    (rsaEncrypt toyAsym (exportSymKey sampleKey1) (7 : Fin 8) ++
        b64Encode (sampleIV1 ++
          ((cbcEnc xorCipher sampleKey1 sampleIV1
            (chunks16 (pad16 (pad10 3005 ++ List.replicate 40 100)))).flatten.set 16 255))) =
      (rsaEncrypt toyAsym (exportSymKey sampleKey1) (7 : Fin 8) ++
        b64Encode (sampleIV1 ++
          ([[54, 54, 54, 54, 54, 54, 53, 54, 54, 51, 98, 98, 98, 98, 98, 98]] ++
            [85, 85, 85, 85, 85, 85, 86, 85, 85, 80, 1, 1, 1, 1, 1, 1].set 0 255 ::
            [54, 54, 54, 54, 54, 54, 53, 54, 54, 51, 98, 98, 98, 98, 98, 98] ::
            [[85, 85, 63, 63, 63, 63, 60, 63, 63, 58, 107, 107, 107, 107, 107,
              107]]).flatten)) ∧
      (routerMessage xorCipher toyAsym (7 : Fin 8) true ⟨none, none, none⟩
          (rsaEncrypt toyAsym (exportSymKey sampleKey1) (7 : Fin 8) ++
            b64Encode (sampleIV1 ++
              ((cbcEnc xorCipher sampleKey1 sampleIV1
                (chunks16 (pad16 (pad10 3005 ++ List.replicate 40 100)))).flatten.set 16
                  255)))).2 =
        (true, some (3005,
          [100, 100, 100, 100, 100, 100, 206, 100, 100, 100, 100, 100, 100, 100, 100,
            100, 100, 100, 100, 100, 100, 100, 206, 100, 100, 100, 100, 100, 100, 100,
            100, 100, 100, 100, 100, 100, 100, 100, 100, 100])) ∧
      [100, 100, 100, 100, 100, 100, 206, 100, 100, 100, 100, 100, 100, 100, 100,
        100, 100, 100, 100, 100, 100, 100, 206, 100, 100, 100, 100, 100, 100, 100,
        100, 100, 100, 100, 100, 100, 100, 100, 100, 100] ≠
        List.replicate 40 100 := by
  refine ⟨by decide, by decide, by decide⟩

end Onion
